import Mathlib

/-! Version-id comparison and version-string matching (`launcher/version_comp.c`).

A shallow embedding of the launcher's JSR 56 version comparator.

Conventions of the embedding.

* A C string (`char *` pointing at NUL-terminated text) is the list of the
  characters that precede its terminating NUL; one `Char` stands for one
  `char`, its code being the value of the `unsigned char`.  A list is the
  image of a C string exactly when NUL does not occur in it (`IsCStr`).
* A `char *` that may be `NULL` is an `Option (List Char)`; a pointer returned
  by a search function (`strchr`, `strpbrk`) is the offset of the match from
  the start of the searched text, `none` standing for `NULL`.
* `int`/`jint` are 32-bit and `jlong` is 64-bit two's complement; every
  arithmetic result is reduced explicitly (`toJint`, `toJlong`).
* A function whose C body may read outside its buffer, dereference `NULL`, or
  loop, returns an `Option`: `none` means that it does not return normally.
-/

namespace VersionComp

/-! ## The C library -/

/-- The character NUL, terminator of every C string. -/
def NUL : Char := Char.ofNat 0

/-- A list of characters is the text of a C string when NUL does not occur in it. -/
def IsCStr (s : List Char) : Prop := ∀ c ∈ s, c ≠ NUL

instance (s : List Char) : Decidable (IsCStr s) := by
  unfold IsCStr
  exact inferInstance

/-- Reduction of a mathematical integer to a two's complement integer of `w` bits. -/
def wrapSigned (w : Nat) (x : Int) : Int :=
  (x + 2 ^ (w - 1)) % 2 ^ w - 2 ^ (w - 1)

/-- Conversion to `jint` (and to `int`): 32 bits. -/
def toJint (x : Int) : Int := wrapSigned 32 x

/-- Conversion to `jlong`: 64 bits. -/
def toJlong (x : Int) : Int := wrapSigned 64 x

/-- The value `(int)c` of a character. -/
def charCode (c : Char) : Int := (c.toNat : Int)

/-- `isdigit(c)` in the C locale. -/
def isdigit (c : Char) : Bool := decide (48 ≤ c.toNat ∧ c.toNat ≤ 57)

/-- `*p` for the C string `p`: its first character, NUL when the text is empty. -/
def deref (p : List Char) : Char := p.headD NUL

/-- `strcmp(s1, s2)`: the difference of the first two characters that differ,
as unsigned characters, the terminating NUL included. -/
def strcmp : List Char → List Char → Int
  | [], [] => 0
  | [], b :: _ => 0 - charCode b
  | a :: _, [] => charCode a
  | a :: s1, b :: s2 => if a = b then strcmp s1 s2 else charCode a - charCode b

/-- `strchr(s, c)`: the offset of the first occurrence of `c` in `s`, the
terminating NUL being part of the string; `none` is `NULL`. -/
def strchr : List Char → Char → Option Nat
  | [], c => if c = NUL then some 0 else none
  | a :: s, c => if a = c then some 0 else (strchr s c).map (· + 1)

/-- `strpbrk(s, accept)`: the offset of the first character of `s` that occurs
in `accept`; `none` is `NULL`. -/
def strpbrk : List Char → List Char → Option Nat
  | [], _ => none
  | a :: s, accept => if a ∈ accept then some 0 else (strpbrk s accept).map (· + 1)

/-! ## A collection of useful strings -/

/-- `static const char *separators = ".-_";` -/
def separators : List Char := ['.', '-', '_']

/-- `static const char *zero_string = "0";` -/
def zero_string : List Char := ['0']

/-! ## `isjavaint` and `comp_string` -/

/-- The `while` loop of `isjavaint`, `sum` being the `jlong` accumulator and the
list the text at `s`.  `some v` is "return 1 with `*value = v`", `none` is
"return 0". -/
def isjavaint_loop (sum : Int) : List Char → Option Int
  | [] => some (toJint sum)
  | c :: s =>
    if isdigit c then
      let digit := toJint (charCode c - charCode '0')
      let sum1 := toJlong (sum * 10 + digit)
      if sum1 > 2147483647 then none else isjavaint_loop sum1 s
    else none

/-- `isjavaint(s, &value)`: `some value` when it returns true, `none` when it
returns false. -/
def isjavaint (s : List Char) : Option Int := isjavaint_loop 0 s

/-- `comp_string(s1, s2)`. -/
def comp_string (s1 s2 : List Char) : Int :=
  match isjavaint s1 with
  | none => strcmp s1 s2
  | some v1 =>
    match isjavaint s2 with
    | none => strcmp s1 s2
    | some v2 => toJint (v1 - v2)

/-! ## The version-id comparators -/

/-- Modelled from the spec: `JLI_StringDup` (declared in `jli_util.h`, defined
outside this file) returns a call-local working copy of its argument; the copy
has the same text. -/
def JLI_StringDup (s : List Char) : List Char := s

/-- The local variables of `JLI_PrefixVersionId` and `JLI_ExactVersionId`.
`s1`, `s2`: the text at the pointer, `none` for `NULL`.
`end1`, `end2`: `none` for `NULL`; `some r` when the pointer is at a separator
of the working copy, `r` being the text at `end + 1`. -/
structure Locals where
  s1 : Option (List Char)
  s2 : Option (List Char)
  end1 : Option (List Char)
  end2 : Option (List Char)
  res : Int
deriving DecidableEq

/-- The statement
`if ((s != NULL) && ((end = strpbrk(s, separators)) != NULL)) *end = '\0';`
as a function from the old `(s, end)` to the new one: the text at `s` is cut at
the separator found, and `end` is left alone when `s` is `NULL`. -/
def cutAtSeparator (s end0 : Option (List Char)) :
    Option (List Char) × Option (List Char) :=
  match s with
  | none => (none, end0)
  | some t =>
    match strpbrk t separators with
    | none => (some t, none)
    | some i => (some (t.take i), some (t.drop (i + 1)))

/-- One execution of the body of the `do` loop of `JLI_PrefixVersionId`;
`none` when `comp_string` is handed a `NULL` pointer. -/
def prefixBody (l : Locals) : Option Locals :=
  let c1 := cutAtSeparator l.s1 l.end1
  let c2 := cutAtSeparator l.s2 l.end2
  match c1.1, c2.1 with
  | some t1, some t2 =>
    some { s1 := c1.2, s2 := c2.2, end1 := c1.2, end2 := c2.2, res := comp_string t1 t2 }
  | _, _ => none

/-- The `do ... while (res == 0 && ((s1 != NULL) && (s2 != NULL)))` loop of
`JLI_PrefixVersionId`, bounded by a number of iterations; `none` when the bound
is reached or the body fails. -/
def prefixLoop : Nat → Locals → Option Int
  | 0, _ => none
  | n + 1, l =>
    match prefixBody l with
    | none => none
    | some l1 =>
      if l1.res = 0 ∧ (l1.s1.isSome ∧ l1.s2.isSome) then prefixLoop n l1
      else some l1.res

/-- `JLI_PrefixVersionId(id1, id2)`.  The loop is run for at most
`strlen(id1) + strlen(id2) + 1` iterations. -/
def JLI_PrefixVersionId (id1 id2 : List Char) : Option Int :=
  prefixLoop (id1.length + id2.length + 1)
    { s1 := some (JLI_StringDup id1), s2 := some (JLI_StringDup id2),
      end1 := none, end2 := none, res := 0 }

/-- One execution of the body of the `do` loop of `JLI_ExactVersionId`;
`none` when `comp_string` is handed a `NULL` pointer. -/
def exactBody (l : Locals) : Option Locals :=
  let c1 := cutAtSeparator l.s1 l.end1
  let c2 := cutAtSeparator l.s2 l.end2
  match c1.1, c2.1 with
  | some t1, none =>
    some { s1 := c1.2, s2 := c2.2, end1 := c1.2, end2 := c2.2,
           res := comp_string t1 zero_string }
  | none, some t2 =>
    some { s1 := c1.2, s2 := c2.2, end1 := c1.2, end2 := c2.2,
           res := comp_string zero_string t2 }
  | some t1, some t2 =>
    some { s1 := c1.2, s2 := c2.2, end1 := c1.2, end2 := c2.2, res := comp_string t1 t2 }
  | none, none => none

/-- The `do ... while (res == 0 && ((s1 != NULL) || (s2 != NULL)))` loop of
`JLI_ExactVersionId`, bounded by a number of iterations. -/
def exactLoop : Nat → Locals → Option Int
  | 0, _ => none
  | n + 1, l =>
    match exactBody l with
    | none => none
    | some l1 =>
      if l1.res = 0 ∧ (l1.s1.isSome ∨ l1.s2.isSome) then exactLoop n l1
      else some l1.res

/-- `JLI_ExactVersionId(id1, id2)`.  The loop is run for at most
`strlen(id1) + strlen(id2) + 1` iterations. -/
def JLI_ExactVersionId (id1 id2 : List Char) : Option Int :=
  exactLoop (id1.length + id2.length + 1)
    { s1 := some (JLI_StringDup id1), s2 := some (JLI_StringDup id2),
      end1 := none, end2 := none, res := 0 }

/-! ## Acceptability -/

/-- `acceptable_simple_element(release, simple_element)`.

`before` is the character stored just before `simple_element` in the buffer it
points into, `none` when `simple_element` is the first byte of that buffer:
`modifier = simple_element + strlen(simple_element) - 1` points there when the
text is empty, and reading `*modifier` is then outside the buffer (`none`). -/
def acceptable_simple_element (release : List Char) (before : Option Char)
    (simple_element : List Char) : Option Bool :=
  let modifier : Option Char :=
    match simple_element.getLast? with
    | some c => some c
    | none => before
  match modifier with
  | none => none
  | some m =>
    if m = '*' then
      let stripped := simple_element.dropLast
      if (strchr release '-').isSome then some (decide (strcmp release stripped = 0))
      else (JLI_PrefixVersionId release stripped).map (fun r => decide (r = 0))
    else if m = '+' then
      let stripped := simple_element.dropLast
      if (strchr release '-').isSome then some (decide (strcmp release stripped = 0))
      else (JLI_ExactVersionId release stripped).map (fun r => decide (r ≥ 0))
    else
      (JLI_ExactVersionId release simple_element).map (fun r => decide (r = 0))

/-- The `do ... while (end != NULL)` loop of `acceptable_element`, bounded by a
number of iterations.  After the first simple-element, the byte before the
current one is the NUL written over the `'&'`. -/
def acceptable_element_loop (release : List Char) :
    Nat → Option Char → List Char → Option Bool
  | 0, _, _ => none
  | n + 1, before, element =>
    let end0 := strchr element '&'
    let cur := match end0 with
      | some i => element.take i
      | none => element
    match acceptable_simple_element release before cur with
    | none => none
    | some false => some false
    | some true =>
      match end0 with
      | some i => acceptable_element_loop release n (some NUL) (element.drop (i + 1))
      | none => some true

/-- `acceptable_element(release, element)`; `before` as in
`acceptable_simple_element`. -/
def acceptable_element (release : List Char) (before : Option Char)
    (element : List Char) : Option Bool :=
  acceptable_element_loop release (element.length + 1) before element

/-- The `do ... while (end != NULL)` loop of `JLI_AcceptableRelease`, bounded by
a number of iterations. -/
def acceptableReleaseLoop (release : List Char) :
    Nat → Option Char → List Char → Option Bool
  | 0, _, _ => none
  | n + 1, before, vs =>
    let end0 := strchr vs ' '
    let cur := match end0 with
      | some i => vs.take i
      | none => vs
    match acceptable_element release before cur with
    | none => none
    | some true => some true
    | some false =>
      match end0 with
      | some i => acceptableReleaseLoop release n (some NUL) (vs.drop (i + 1))
      | none => some false

/-- `JLI_AcceptableRelease(release, version_string)`: `vs` starts at the first
byte of the working copy. -/
def JLI_AcceptableRelease (release version_string : List Char) : Option Bool :=
  acceptableReleaseLoop release (version_string.length + 1) none
    (JLI_StringDup version_string)

/-! ## Validity -/

/-- The `for (; simple_element != last; simple_element++)` loop of
`valid_simple_element` (property 3); the first argument is
`last - simple_element`, the second the text at `simple_element`. -/
def adjacentLoop : Nat → List Char → Bool
  | 0, _ => true
  | n + 1, p =>
    if (strchr separators (deref p)).isSome ∧ (strchr separators (deref (p.drop 1))).isSome
    then false
    else adjacentLoop n (p.drop 1)

/-- `valid_simple_element(simple_element)`; `last` is kept as its offset from
`simple_element`. -/
def valid_simple_element (simple_element : Option (List Char)) : Bool :=
  match simple_element with
  | none => false
  | some s0 =>
    let len := s0.length
    if len = 0 then false
    else
      let last0 := len - 1
      let m := deref (s0.drop last0)
      let strip : Bool := decide (m = '*' ∨ m = '+')
      if strip ∧ len - 1 = 0 then false
      else
        let s := if strip then s0.take last0 else s0
        let last := if strip then last0 - 1 else last0
        if (strpbrk s [' ', '&', '+', '*']).isSome then false
        else if (strchr separators (deref s)).isSome ∨
            (strchr separators (deref (s.drop last))).isSome then false
        else adjacentLoop last s

/-- The `do ... while (end != NULL)` loop of `valid_element`, bounded by a number
of iterations. -/
def valid_element_loop : Nat → List Char → Option Bool
  | 0, _ => none
  | n + 1, element =>
    let end0 := strchr element '&'
    let cur := match end0 with
      | some i => element.take i
      | none => element
    if valid_simple_element (some cur) then
      match end0 with
      | some i => valid_element_loop n (element.drop (i + 1))
      | none => some true
    else some false

/-- `valid_element(element)`. -/
def valid_element (element : Option (List Char)) : Option Bool :=
  match element with
  | none => some false
  | some e => if e.length = 0 then some false else valid_element_loop (e.length + 1) e

/-- The `do ... while (end != NULL)` loop of `JLI_ValidVersionString`, bounded by
a number of iterations. -/
def validVersionStringLoop : Nat → List Char → Option Bool
  | 0, _ => none
  | n + 1, vs =>
    let end0 := strchr vs ' '
    let cur := match end0 with
      | some i => vs.take i
      | none => vs
    match valid_element (some cur) with
    | none => none
    | some false => some false
    | some true =>
      match end0 with
      | some i => validVersionStringLoop n (vs.drop (i + 1))
      | none => some true

/-- `JLI_ValidVersionString(version_string)`. -/
def JLI_ValidVersionString (version_string : Option (List Char)) : Option Bool :=
  match version_string with
  | none => some false
  | some v =>
    if v.length = 0 then some false
    else validVersionStringLoop (v.length + 1) (JLI_StringDup v)

/-! ## Vocabulary of the specification -/

/-- An ASCII decimal digit. -/
def IsAsciiDigit (c : Char) : Prop := 48 ≤ c.toNat ∧ c.toNat ≤ 57

instance (c : Char) : Decidable (IsAsciiDigit c) := by
  unfold IsAsciiDigit
  exact inferInstance

/-- A text that consists only of ASCII digits. -/
def DigitString (s : List Char) : Prop := ∀ c ∈ s, IsAsciiDigit c

instance (s : List Char) : Decidable (DigitString s) := by
  unfold DigitString
  exact inferInstance

/-- The number written by the digits of `s` after the digits that gave `acc`. -/
def decimalFrom (acc : Nat) : List Char → Nat
  | [] => acc
  | c :: s => decimalFrom (10 * acc + (c.toNat - 48)) s

/-- The number denoted by a string of decimal digits, leading zeros allowed. -/
def decimalValue (s : List Char) : Nat := decimalFrom 0 s

/-- Integer-parseable in the sense of the code: digits only, value at most
2147483647. -/
def JavaIntText (s : List Char) : Prop := DigitString s ∧ decimalValue s ≤ 2147483647

instance (s : List Char) : Decidable (JavaIntText s) := by
  unfold JavaIntText
  exact inferInstance

/-- The text contains a non-digit character, or is a digit string whose value
exceeds 2147483647. -/
def NotNumeral (s : List Char) : Prop :=
  (∃ c ∈ s, ¬ IsAsciiDigit c) ∨ (DigitString s ∧ 2147483647 < decimalValue s)

instance (s : List Char) : Decidable (NotNumeral s) := by
  unfold NotNumeral
  exact inferInstance

/-- The components of a version-id: the pieces obtained by splitting the text
at every separator character.  A text with `k` separators has `k + 1`
components, some of them possibly empty. -/
def components : List Char → List (List Char)
  | [] => [[]]
  | c :: s =>
    if c ∈ separators then [] :: components s
    else
      match components s with
      | [] => [[c]]
      | h :: t => (c :: h) :: t

/-- `r` is the value of `f` at the least index below `n` where `f` is not 0,
and is 0 when `f` is 0 at every index below `n`. -/
def LeastNonzero (n : Nat) (f : Nat → Int) (r : Int) : Prop :=
  (∃ i, i < n ∧ (∀ j, j < i → f j = 0) ∧ f i ≠ 0 ∧ r = f i) ∨
    ((∀ i, i < n → f i = 0) ∧ r = 0)

/-- The components that remain to be read from a pointer of the comparators:
none for `NULL`. -/
def remaining : Option (List Char) → List (List Char)
  | none => []
  | some t => components t

/-- The comparison of the `i`-th components of two component lists, a list
that has no `i`-th component standing there for the component `pad`. -/
def compareAt (pad : List Char) (c1 c2 : List (List Char)) (i : Nat) : Int :=
  comp_string (c1.getD i pad) (c2.getD i pad)

/-- The pieces obtained by splitting a text at every occurrence of the
delimiter `d`.  A text with `k` delimiters has `k + 1` pieces, some of them
possibly empty. -/
def pieces (d : Char) : List Char → List (List Char)
  | [] => [[]]
  | c :: s =>
    if c = d then [] :: pieces d s
    else
      match pieces d s with
      | [] => [[c]]
      | h :: t => (c :: h) :: t

/-- A separator character: `'.'`, `'-'` or `'_'`. -/
def IsSeparator (c : Char) : Prop := c = '.' ∨ c = '-' ∨ c = '_'

instance (c : Char) : Decidable (IsSeparator c) := by
  unfold IsSeparator
  exact inferInstance

/-- A modifier character: `'+'` or `'*'`. -/
def IsModifier (c : Char) : Prop := c = '+' ∨ c = '*'

instance (c : Char) : Decidable (IsModifier c) := by
  unfold IsModifier
  exact inferInstance

/-- The text obtained by removing at most one trailing `'+'` or `'*'`. -/
def stripModifier (s : List Char) : List Char :=
  match s.getLast? with
  | none => s
  | some c => if IsModifier c then s.dropLast else s

/-- The three simple properties of a version-id: (1) it contains none of
`' '`, `'&'`, `'+'`, `'*'`; (2) it neither starts nor ends with a separator;
(3) it contains no two adjacent separators. -/
def ThreeProperties (t : List Char) : Prop :=
  (∀ c ∈ t, c ≠ ' ' ∧ c ≠ '&' ∧ c ≠ '+' ∧ c ≠ '*') ∧
  ((∀ c, t.head? = some c → ¬ IsSeparator c) ∧
    (∀ c, t.getLast? = some c → ¬ IsSeparator c)) ∧
  t.Chain' (fun a b => ¬ (IsSeparator a ∧ IsSeparator b))

/-- The part of `valid_simple_element` that follows the removal of the
modifier, as a function of the text at `simple_element` and of the offset of
`last`. -/
def versionIdChecks (s : List Char) (last : Nat) : Bool :=
  if (strpbrk s [' ', '&', '+', '*']).isSome then false
  else if (strchr separators (deref s)).isSome ∨
      (strchr separators (deref (s.drop last))).isSome then false
  else adjacentLoop last s

/-! ### The official grammar of a simple-element

```
simple-element ::= version-id | version-id modifier
modifier       ::= '+' | '*'
version-id     ::= string ( separator string )*
string         ::= char ( char )*
char           ::= any character except a space, an ampersand, a separator or a modifier
separator      ::= '.' | '-' | '_'
```
-/

/-- The production `char`. -/
def IsGrammarChar (c : Char) : Prop :=
  c ≠ ' ' ∧ c ≠ '&' ∧ ¬ IsSeparator c ∧ ¬ IsModifier c

/-- The texts derivable from `( char )*`. -/
inductive GChars : List Char → Prop
  | nil : GChars []
  | cons (c : Char) (s : List Char) : IsGrammarChar c → GChars s → GChars (c :: s)

/-- The texts derivable from `string ::= char ( char )*`. -/
def GString (s : List Char) : Prop :=
  ∃ c cs, IsGrammarChar c ∧ GChars cs ∧ s = c :: cs

/-- The texts derivable from `( separator string )*`. -/
inductive GTail : List Char → Prop
  | nil : GTail []
  | cons (sep : Char) (s rest : List Char) :
      IsSeparator sep → GString s → GTail rest → GTail (sep :: (s ++ rest))

/-- The texts derivable from `version-id ::= string ( separator string )*`. -/
def GVersionId (t : List Char) : Prop :=
  ∃ s r, GString s ∧ GTail r ∧ t = s ++ r

/-- The texts derivable from
`simple-element ::= version-id | version-id modifier`. -/
def GSimpleElement (e : List Char) : Prop :=
  GVersionId e ∨ ∃ v m, GVersionId v ∧ IsModifier m ∧ e = v ++ [m]

/-- Property 1 for one character. -/
def Plain (c : Char) : Prop := c ≠ ' ' ∧ c ≠ '&' ∧ c ≠ '+' ∧ c ≠ '*'

/-- What the three properties leave of a text once its start is not looked at:
property 1, no separator at the end, property 3. -/
def TailProperties (t : List Char) : Prop :=
  (∀ c ∈ t, Plain c) ∧ (∀ c, t.getLast? = some c → ¬ IsSeparator c) ∧
    t.Chain' (fun a b => ¬ (IsSeparator a ∧ IsSeparator b))

/-- The number of separator characters in a text. -/
def separatorCount (s : List Char) : Nat :=
  s.countP (fun c => decide (c ∈ separators))

/-- What one iteration of a comparator loop does to one side, `s` being the
pointer before the iteration and `s1` the pointer after it: an exhausted side
(`NULL`) stays exhausted; a side with no separator left becomes exhausted;
otherwise exactly one separator is consumed. -/
def SideStep (s s1 : Option (List Char)) : Prop :=
  match s with
  | none => s1 = none
  | some t =>
    if separatorCount t = 0 then s1 = none
    else ∃ t1, s1 = some t1 ∧ separatorCount t1 + 1 = separatorCount t

/-- The values of the local variables when the `do` loop of a comparator is
entered. -/
def loopEntry (id1 id2 : List Char) : Locals :=
  { s1 := some (JLI_StringDup id1), s2 := some (JLI_StringDup id2),
    end1 := none, end2 := none, res := 0 }

/-- The text `t` is obtained from the text `s` by replacing some occurrences of
separator characters by separator characters: same length, and at every
position the same character or two separators. -/
def SameUpToSeparators (s t : List Char) : Prop :=
  s.length = t.length ∧ ∀ p ∈ s.zip t, p.1 = p.2 ∨ (IsSeparator p.1 ∧ IsSeparator p.2)

instance (s t : List Char) : Decidable (SameUpToSeparators s t) := by
  unfold SameUpToSeparators
  exact inferInstance

/-- The simple-elements that the loop of `acceptable_element` passes to
`acceptable_simple_element`, in the order of the calls: the loop of
`acceptable_element_loop`, recording the argument of each call. -/
def acceptable_element_calls (release : List Char) :
    Nat → Option Char → List Char → List (List Char)
  | 0, _, _ => []
  | n + 1, before, element =>
    let end0 := strchr element '&'
    let cur := match end0 with
      | some i => element.take i
      | none => element
    cur ::
      (match acceptable_simple_element release before cur with
        | some true =>
          (match end0 with
            | some i => acceptable_element_calls release n (some NUL) (element.drop (i + 1))
            | none => [])
        | _ => [])

/-- The simple-elements passed to `acceptable_simple_element` during the loop
of `JLI_AcceptableRelease`, in the order of the calls. -/
def acceptableReleaseCalls (release : List Char) :
    Nat → Option Char → List Char → List (List Char)
  | 0, _, _ => []
  | n + 1, before, vs =>
    let end0 := strchr vs ' '
    let cur := match end0 with
      | some i => vs.take i
      | none => vs
    acceptable_element_calls release (cur.length + 1) before cur ++
      (match acceptable_element release before cur with
        | some false =>
          (match end0 with
            | some i => acceptableReleaseCalls release n (some NUL) (vs.drop (i + 1))
            | none => [])
        | _ => [])

/-- The simple-elements that an evaluation of
`JLI_AcceptableRelease(release, version_string)` passes to
`acceptable_simple_element`. -/
def simpleElementsInspected (release version_string : List Char) : List (List Char) :=
  acceptableReleaseCalls release (version_string.length + 1) none
    (JLI_StringDup version_string)

/-! ## Lemmas on the C library and on `isjavaint` -/

theorem toJint_of_range (x : Int) (h1 : -2147483648 ≤ x) (h2 : x ≤ 2147483647) :
    toJint x = x := by
  unfold toJint wrapSigned
  norm_num
  omega

theorem toJlong_of_range (x : Int) (h1 : -9223372036854775808 ≤ x)
    (h2 : x ≤ 9223372036854775807) : toJlong x = x := by
  unfold toJlong wrapSigned
  norm_num
  omega

theorem isdigit_iff (c : Char) : isdigit c = true ↔ IsAsciiDigit c := by
  simp [isdigit, IsAsciiDigit]

theorem char_eq_of_toNat_eq {a b : Char} (h : a.toNat = b.toNat) : a = b := by
  rw [← Char.ofNat_toNat a, h, Char.ofNat_toNat]

theorem toNat_ne_zero_of_ne_NUL {c : Char} (h : c ≠ NUL) : c.toNat ≠ 0 := by
  intro h0
  exact h (char_eq_of_toNat_eq (by rw [h0]; rfl))

theorem decimalFrom_nil (acc : Nat) : decimalFrom acc [] = acc := rfl

theorem decimalFrom_cons (acc : Nat) (c : Char) (s : List Char) :
    decimalFrom acc (c :: s) = decimalFrom (10 * acc + (c.toNat - 48)) s := rfl

theorem le_decimalFrom (acc : Nat) (s : List Char) : acc ≤ decimalFrom acc s := by
  induction s generalizing acc with
  | nil => exact Nat.le_refl _
  | cons c s ih =>
    have h := ih (10 * acc + (c.toNat - 48))
    rw [decimalFrom_cons]
    generalize decimalFrom (10 * acc + (c.toNat - 48)) s = d at h ⊢
    generalize c.toNat - 48 = e at h
    omega

theorem isjavaint_loop_nil (sum : Int) : isjavaint_loop sum [] = some (toJint sum) := rfl

theorem isjavaint_loop_cons (sum : Int) (c : Char) (s : List Char) :
    isjavaint_loop sum (c :: s) =
      if isdigit c then
        if toJlong (sum * 10 + toJint (charCode c - charCode '0')) > 2147483647 then none
        else isjavaint_loop (toJlong (sum * 10 + toJint (charCode c - charCode '0'))) s
      else none := rfl

/-- The loop of `isjavaint`, started with an accumulator within the `jint`
range, accepts exactly the digit strings whose accumulated value stays within
that range, and then stores that value: no reduction to 64 or to 32 bits
changes a number on the way. -/
theorem isjavaint_loop_eq (s : List Char) (acc : Nat) (hacc : acc ≤ 2147483647) :
    isjavaint_loop (acc : Int) s =
      if DigitString s ∧ decimalFrom acc s ≤ 2147483647 then some (decimalFrom acc s : Int)
      else none := by
  induction s generalizing acc with
  | nil =>
    have h : toJint (acc : Int) = acc := toJint_of_range _ (by omega) (by omega)
    have hd : DigitString [] := fun c hc => absurd hc (List.not_mem_nil c)
    rw [isjavaint_loop_nil, decimalFrom_nil, if_pos ⟨hd, hacc⟩, h]
  | cons c s ih =>
    rw [isjavaint_loop_cons, decimalFrom_cons]
    by_cases hd : IsAsciiDigit c
    · have hd1 : isdigit c = true := (isdigit_iff c).2 hd
      obtain ⟨hlo, hhi⟩ := hd
      have hdig : toJint (charCode c - charCode '0') = ((c.toNat - 48 : Nat) : Int) := by
        have h0 : charCode '0' = 48 := by decide
        rw [h0, charCode, toJint_of_range _ (by omega) (by omega)]
        omega
      have hsum : toJlong ((acc : Int) * 10 + ((c.toNat - 48 : Nat) : Int))
          = ((10 * acc + (c.toNat - 48) : Nat) : Int) := by
        rw [toJlong_of_range _ (by omega) (by omega)]
        push_cast
        ring
      have hds : DigitString (c :: s) ↔ DigitString s := by
        constructor
        · intro h x hx
          exact h x (List.mem_cons_of_mem _ hx)
        · intro h x hx
          rcases List.mem_cons.1 hx with rfl | hx
          · exact ⟨hlo, hhi⟩
          · exact h x hx
      rw [if_pos hd1, hdig, hsum]
      generalize c.toNat - 48 = e at *
      by_cases hbig : 10 * acc + e ≤ 2147483647
      · have hn : ¬ (((10 * acc + e : Nat) : Int) > 2147483647) := by omega
        rw [if_neg hn, ih _ hbig]
        simp only [hds]
      · have hn : (((10 * acc + e : Nat) : Int) > 2147483647) := by omega
        have hle := le_decimalFrom (10 * acc + e) s
        rw [if_pos hn, if_neg]
        intro h
        omega
    · have hd1 : ¬ (isdigit c = true) := fun h => hd ((isdigit_iff c).1 h)
      have hds : ¬ DigitString (c :: s) := fun h => hd (h c (List.mem_cons_self _ _))
      rw [if_neg hd1, if_neg (fun h => hds h.1)]

/-- `isjavaint` returns true, with the value of the text, exactly on the digit
strings (the empty one included) whose value is at most 2147483647. -/
theorem isjavaint_eq (s : List Char) :
    isjavaint s = if JavaIntText s then some (decimalValue s : Int) else none := by
  have := isjavaint_loop_eq s 0 (by omega)
  simpa [isjavaint, JavaIntText, decimalValue] using this

theorem strcmp_nil_nil : strcmp [] [] = 0 := rfl

theorem strcmp_nil_cons (b : Char) (s : List Char) : strcmp [] (b :: s) = 0 - charCode b := rfl

theorem strcmp_cons_nil (a : Char) (s : List Char) : strcmp (a :: s) [] = charCode a := rfl

theorem strcmp_cons_cons (a b : Char) (s1 s2 : List Char) :
    strcmp (a :: s1) (b :: s2) =
      if a = b then strcmp s1 s2 else charCode a - charCode b := rfl

/-- `strcmp` returns 0 exactly on equal texts. -/
theorem strcmp_eq_zero_iff (s1 s2 : List Char) (h1 : IsCStr s1) (h2 : IsCStr s2) :
    strcmp s1 s2 = 0 ↔ s1 = s2 := by
  induction s1 generalizing s2 with
  | nil =>
    cases s2 with
    | nil => simp [strcmp_nil_nil]
    | cons b s2 =>
      have hb := toNat_ne_zero_of_ne_NUL (h2 b (List.mem_cons_self _ _))
      simp only [strcmp_nil_cons, charCode]
      constructor
      · intro h
        omega
      · intro h
        cases h
  | cons a s1 ih =>
    cases s2 with
    | nil =>
      have ha := toNat_ne_zero_of_ne_NUL (h1 a (List.mem_cons_self _ _))
      simp only [strcmp_cons_nil, charCode]
      constructor
      · intro h
        omega
      · intro h
        cases h
    | cons b s2 =>
      have h1t : IsCStr s1 := fun c hc => h1 c (List.mem_cons_of_mem _ hc)
      have h2t : IsCStr s2 := fun c hc => h2 c (List.mem_cons_of_mem _ hc)
      rw [strcmp_cons_cons]
      by_cases hab : a = b
      · subst hab
        simp [ih s2 h1t h2t]
      · have hne : a.toNat ≠ b.toNat := fun h => hab (char_eq_of_toNat_eq h)
        rw [if_neg hab]
        simp only [charCode]
        constructor
        · intro h
          omega
        · intro h
          exact absurd (List.cons.inj h).1 hab

theorem notNumeral_iff (s : List Char) : NotNumeral s ↔ ¬ JavaIntText s := by
  unfold NotNumeral JavaIntText
  constructor
  · rintro (⟨c, hc, hnd⟩ | ⟨_, hv⟩) ⟨hd, hle⟩
    · exact hnd (hd c hc)
    · omega
  · intro h
    by_cases hd : DigitString s
    · right
      refine ⟨hd, ?_⟩
      by_contra hle
      exact h ⟨hd, by omega⟩
    · left
      unfold DigitString at hd
      push_neg at hd
      exact hd

/-! ## Lemmas on splitting and on the comparator loops -/

theorem components_nil : components [] = [[]] := rfl

theorem components_cons (c : Char) (s : List Char) :
    components (c :: s) =
      if c ∈ separators then [] :: components s
      else
        match components s with
        | [] => [[c]]
        | h :: t => (c :: h) :: t := rfl

theorem strpbrk_nil (accept : List Char) : strpbrk [] accept = none := rfl

theorem strpbrk_cons (a : Char) (s accept : List Char) :
    strpbrk (a :: s) accept =
      if a ∈ accept then some 0 else (strpbrk s accept).map (· + 1) := rfl

theorem components_ne_nil (s : List Char) : components s ≠ [] := by
  cases s with
  | nil => simp [components_nil]
  | cons c s =>
    rw [components_cons]
    split
    · simp
    · split <;> simp

theorem components_length_le (s : List Char) : (components s).length ≤ s.length + 1 := by
  induction s with
  | nil => simp [components_nil]
  | cons c s ih =>
    rw [components_cons]
    split
    · simp
      omega
    · split
      · simp
      · rename_i h t heq
        rw [heq] at ih
        simp at ih ⊢
        omega

/-- Cutting at the first separator yields the first component, and what follows
the separator holds the other components. -/
theorem components_of_strpbrk (t : List Char) :
    match strpbrk t separators with
    | none => components t = [t]
    | some i => components t = t.take i :: components (t.drop (i + 1)) := by
  induction t with
  | nil => simp [strpbrk_nil, components_nil]
  | cons c t ih =>
    rw [strpbrk_cons, components_cons]
    by_cases hc : c ∈ separators
    · simp [hc]
    · simp only [hc, if_false]
      cases hs : strpbrk t separators with
      | none =>
        rw [hs] at ih
        simp only at ih
        simp [ih]
      | some j =>
        rw [hs] at ih
        simp only at ih
        simp [ih]

theorem cutAtSeparator_none (e : Option (List Char)) : cutAtSeparator none e = (none, e) := rfl

theorem cutAtSeparator_some (t : List Char) (e : Option (List Char)) :
    ∃ h, (cutAtSeparator (some t) e).1 = some h ∧
      components t = h :: remaining (cutAtSeparator (some t) e).2 := by
  have key := components_of_strpbrk t
  cases hs : strpbrk t separators with
  | none =>
    rw [hs] at key
    exact ⟨t, by simp [cutAtSeparator, hs], by simpa [cutAtSeparator, hs, remaining] using key⟩
  | some i =>
    rw [hs] at key
    exact ⟨t.take i, by simp [cutAtSeparator, hs],
      by simpa [cutAtSeparator, hs, remaining] using key⟩

theorem remaining_eq_nil_iff (p : Option (List Char)) : remaining p = [] ↔ p = none := by
  cases p with
  | none => simp [remaining]
  | some t => simp [remaining, components_ne_nil]

theorem leastNonzero_first (n : Nat) (f : Nat → Int) (hn : 0 < n) (h : f 0 ≠ 0) :
    LeastNonzero n f (f 0) :=
  Or.inl ⟨0, hn, fun j hj => absurd hj (Nat.not_lt_zero j), h, rfl⟩

theorem leastNonzero_empty (f : Nat → Int) : LeastNonzero 0 f 0 :=
  Or.inr ⟨fun i hi => absurd hi (Nat.not_lt_zero i), rfl⟩

theorem leastNonzero_step (n : Nat) (f : Nat → Int) (r : Int) (h0 : f 0 = 0)
    (h : LeastNonzero n (fun i => f (i + 1)) r) : LeastNonzero (n + 1) f r := by
  rcases h with ⟨i, hi, hz, hne, hr⟩ | ⟨hz, hr⟩
  · refine Or.inl ⟨i + 1, by omega, ?_, hne, hr⟩
    intro j hj
    cases j with
    | zero => exact h0
    | succ j => exact hz j (by omega)
  · refine Or.inr ⟨?_, hr⟩
    intro i hi
    cases i with
    | zero => exact h0
    | succ i => exact hz i (by omega)

theorem leastNonzero_unique (n : Nat) (f g : Nat → Int) (r r1 : Int)
    (hfg : ∀ i, i < n → f i = g i) (hf : LeastNonzero n f r) (hg : LeastNonzero n g r1) :
    r = r1 := by
  rcases hf with ⟨i, hi, hzi, hnei, hri⟩ | ⟨hz, hr⟩
  · rcases hg with ⟨j, hj, hzj, hnej, hrj⟩ | ⟨hz1, _⟩
    · rcases Nat.lt_trichotomy i j with hlt | heq | hgt
      · exact absurd ((hfg i hi).trans (hzj i hlt)) hnei
      · subst heq
        rw [hri, hrj, hfg i hi]
      · exact absurd ((hfg j hj).symm ▸ hzi j hgt) hnej
    · exact absurd ((hfg i hi).trans (hz1 i hi)) hnei
  · rcases hg with ⟨j, hj, _, hnej, _⟩ | ⟨_, hr1⟩
    · exact absurd ((hfg j hj).symm.trans (hz j hj)) hnej
    · rw [hr, hr1]

theorem getD_succ_eq_tail (c : List (List Char)) (i : Nat) (d : List Char) :
    c.getD (i + 1) d = c.tail.getD i d := by
  cases c <;> simp

theorem compareAt_succ (pad : List Char) (c1 c2 : List (List Char)) :
    (fun i => compareAt pad c1 c2 (i + 1)) = compareAt pad c1.tail c2.tail := by
  funext i
  simp only [compareAt, getD_succ_eq_tail]

theorem exactLoop_succ (n : Nat) (l : Locals) :
    exactLoop (n + 1) l =
      match exactBody l with
      | none => none
      | some l1 =>
        if l1.res = 0 ∧ (l1.s1.isSome ∨ l1.s2.isSome) then exactLoop n l1
        else some l1.res := rfl

theorem prefixLoop_succ (n : Nat) (l : Locals) :
    prefixLoop (n + 1) l =
      match prefixBody l with
      | none => none
      | some l1 =>
        if l1.res = 0 ∧ (l1.s1.isSome ∧ l1.s2.isSome) then prefixLoop n l1
        else some l1.res := rfl

/-- The body of the loop of `JLI_ExactVersionId`: it compares the first
remaining components, `"0"` standing for an exhausted side, and leaves the other
components to be read; an exhausted side stays exhausted. -/
theorem exactBody_spec (l : Locals) (h1 : l.s1 = none → l.end1 = none)
    (h2 : l.s2 = none → l.end2 = none) (hs : l.s1.isSome ∨ l.s2.isSome) :
    ∃ l1, exactBody l = some l1 ∧
      l1.res = compareAt zero_string (remaining l.s1) (remaining l.s2) 0 ∧
      remaining l1.s1 = (remaining l.s1).tail ∧ remaining l1.s2 = (remaining l.s2).tail ∧
      l1.end1 = l1.s1 ∧ l1.end2 = l1.s2 := by
  rcases l with ⟨s1, s2, e1, e2, r⟩
  cases s1 with
  | none =>
    cases s2 with
    | none => simp at hs
    | some t2 =>
      obtain ⟨c2, hc2, hcomp2⟩ := cutAtSeparator_some t2 e2
      have he1 : e1 = none := h1 rfl
      subst he1
      refine ⟨_, by simp only [exactBody, cutAtSeparator_none, hc2]; rfl, ?_⟩
      simp [compareAt, remaining, hcomp2]
  | some t1 =>
    obtain ⟨c1, hc1, hcomp1⟩ := cutAtSeparator_some t1 e1
    cases s2 with
    | none =>
      have he2 : e2 = none := h2 rfl
      subst he2
      refine ⟨_, by simp only [exactBody, cutAtSeparator_none, hc1]; rfl, ?_⟩
      simp [compareAt, remaining, hcomp1]
    | some t2 =>
      obtain ⟨c2, hc2, hcomp2⟩ := cutAtSeparator_some t2 e2
      refine ⟨_, by simp only [exactBody, hc1, hc2]; rfl, ?_⟩
      simp [compareAt, remaining, hcomp1, hcomp2]

/-- The body of the loop of `JLI_PrefixVersionId`, entered with both pointers
set: it compares the first remaining components. -/
theorem prefixBody_spec (l : Locals) (hs1 : l.s1.isSome) (hs2 : l.s2.isSome) :
    ∃ l1, prefixBody l = some l1 ∧
      l1.res = compareAt [] (remaining l.s1) (remaining l.s2) 0 ∧
      remaining l1.s1 = (remaining l.s1).tail ∧ remaining l1.s2 = (remaining l.s2).tail := by
  rcases l with ⟨s1, s2, e1, e2, r⟩
  cases s1 with
  | none => simp at hs1
  | some t1 =>
    cases s2 with
    | none => simp at hs2
    | some t2 =>
      obtain ⟨c1, hc1, hcomp1⟩ := cutAtSeparator_some t1 e1
      obtain ⟨c2, hc2, hcomp2⟩ := cutAtSeparator_some t2 e2
      refine ⟨_, by simp only [prefixBody, hc1, hc2]; rfl, ?_⟩
      simp [compareAt, remaining, hcomp1, hcomp2]

theorem isSome_iff_remaining (p : Option (List Char)) :
    p.isSome = true ↔ remaining p ≠ [] := by
  rw [Ne, remaining_eq_nil_iff]
  cases p <;> simp

/-- The loop of `JLI_ExactVersionId`, entered with at least one pointer set
and enough iterations allowed, returns the first non-zero comparison among the
remaining components, padded with `"0"`. -/
theorem exactLoop_spec (n : Nat) (l : Locals) (h1 : l.s1 = none → l.end1 = none)
    (h2 : l.s2 = none → l.end2 = none) (hs : l.s1.isSome ∨ l.s2.isSome)
    (hn : max (remaining l.s1).length (remaining l.s2).length ≤ n) :
    ∃ r, exactLoop n l = some r ∧
      LeastNonzero (max (remaining l.s1).length (remaining l.s2).length)
        (compareAt zero_string (remaining l.s1) (remaining l.s2)) r := by
  induction n generalizing l with
  | zero =>
    exfalso
    rcases hs with hs | hs
    · have := List.length_pos.2 ((isSome_iff_remaining _).1 hs)
      omega
    · have := List.length_pos.2 ((isSome_iff_remaining _).1 hs)
      omega
  | succ n ih =>
    obtain ⟨l1, hbody, hres, ht1, ht2, he1, he2⟩ := exactBody_spec l h1 h2 hs
    have hpos : 0 < max (remaining l.s1).length (remaining l.s2).length := by
      rcases hs with hs | hs
      · have := List.length_pos.2 ((isSome_iff_remaining _).1 hs)
        omega
      · have := List.length_pos.2 ((isSome_iff_remaining _).1 hs)
        omega
    have hlen1 : (remaining l1.s1).length = (remaining l.s1).length - 1 := by
      rw [ht1, List.length_tail]
    have hlen2 : (remaining l1.s2).length = (remaining l.s2).length - 1 := by
      rw [ht2, List.length_tail]
    rw [exactLoop_succ, hbody]
    simp only
    by_cases hz : l1.res = 0
    · by_cases hc : l1.s1.isSome ∨ l1.s2.isSome
      · rw [if_pos ⟨hz, hc⟩]
        obtain ⟨r, hr, hspec⟩ := ih l1 (fun h => he1.trans h) (fun h => he2.trans h) hc
          (by omega)
        refine ⟨r, hr, ?_⟩
        have hmax : max (remaining l.s1).length (remaining l.s2).length
            = max (remaining l1.s1).length (remaining l1.s2).length + 1 := by omega
        rw [hmax]
        apply leastNonzero_step _ _ _ (hres ▸ hz)
        rw [compareAt_succ, ← ht1, ← ht2]
        exact hspec
      · rw [if_neg (fun h => hc h.2)]
        refine ⟨l1.res, rfl, ?_⟩
        have hn1 : remaining l1.s1 = [] := by
          by_contra h
          exact hc (Or.inl ((isSome_iff_remaining _).2 h))
        have hn2 : remaining l1.s2 = [] := by
          by_contra h
          exact hc (Or.inr ((isSome_iff_remaining _).2 h))
        rw [hn1] at hlen1
        rw [hn2] at hlen2
        simp only [List.length_nil] at hlen1 hlen2
        have hmax : max (remaining l.s1).length (remaining l.s2).length = 0 + 1 := by omega
        rw [hmax, hz]
        exact leastNonzero_step _ _ _ (hres ▸ hz) (leastNonzero_empty _)
    · rw [if_neg (fun h => hz h.1)]
      refine ⟨l1.res, rfl, ?_⟩
      rw [hres] at hz ⊢
      exact leastNonzero_first _ _ hpos hz

/-- The loop of `JLI_PrefixVersionId`, entered with both pointers set and enough
iterations allowed, returns the first non-zero comparison among the component
pairs that both sides have. -/
theorem prefixLoop_spec (n : Nat) (l : Locals) (hs1 : l.s1.isSome) (hs2 : l.s2.isSome)
    (hn : min (remaining l.s1).length (remaining l.s2).length ≤ n) :
    ∃ r, prefixLoop n l = some r ∧
      LeastNonzero (min (remaining l.s1).length (remaining l.s2).length)
        (compareAt [] (remaining l.s1) (remaining l.s2)) r := by
  induction n generalizing l with
  | zero =>
    exfalso
    have := List.length_pos.2 ((isSome_iff_remaining _).1 hs1)
    have := List.length_pos.2 ((isSome_iff_remaining _).1 hs2)
    omega
  | succ n ih =>
    obtain ⟨l1, hbody, hres, ht1, ht2⟩ := prefixBody_spec l hs1 hs2
    have hp1 := List.length_pos.2 ((isSome_iff_remaining _).1 hs1)
    have hp2 := List.length_pos.2 ((isSome_iff_remaining _).1 hs2)
    have hlen1 : (remaining l1.s1).length = (remaining l.s1).length - 1 := by
      rw [ht1, List.length_tail]
    have hlen2 : (remaining l1.s2).length = (remaining l.s2).length - 1 := by
      rw [ht2, List.length_tail]
    rw [prefixLoop_succ, hbody]
    simp only
    by_cases hz : l1.res = 0
    · by_cases hc : l1.s1.isSome ∧ l1.s2.isSome
      · rw [if_pos ⟨hz, hc⟩]
        obtain ⟨r, hr, hspec⟩ := ih l1 hc.1 hc.2 (by omega)
        refine ⟨r, hr, ?_⟩
        have hmin : min (remaining l.s1).length (remaining l.s2).length
            = min (remaining l1.s1).length (remaining l1.s2).length + 1 := by omega
        rw [hmin]
        apply leastNonzero_step _ _ _ (hres ▸ hz)
        rw [compareAt_succ, ← ht1, ← ht2]
        exact hspec
      · rw [if_neg (fun h => hc h.2)]
        refine ⟨l1.res, rfl, ?_⟩
        have hmin : min (remaining l.s1).length (remaining l.s2).length = 0 + 1 := by
          by_cases h1 : remaining l1.s1 = []
          · rw [h1] at hlen1
            simp only [List.length_nil] at hlen1
            omega
          · have h2 : remaining l1.s2 = [] := by
              by_contra h
              exact hc ⟨(isSome_iff_remaining _).2 h1, (isSome_iff_remaining _).2 h⟩
            rw [h2] at hlen2
            simp only [List.length_nil] at hlen2
            omega
        rw [hmin, hz]
        exact leastNonzero_step _ _ _ (hres ▸ hz) (leastNonzero_empty _)
    · rw [if_neg (fun h => hz h.1)]
      refine ⟨l1.res, rfl, ?_⟩
      rw [hres] at hz ⊢
      exact leastNonzero_first _ _ (by omega) hz

/-- `JLI_ExactVersionId` returns, and returns the first non-zero comparison of
the components padded with `"0"`. -/
theorem exactVersionId_returns (id1 id2 : List Char) :
    ∃ r, JLI_ExactVersionId id1 id2 = some r ∧
      LeastNonzero (max (components id1).length (components id2).length)
        (compareAt zero_string (components id1) (components id2)) r := by
  have h1 := components_length_le id1
  have h2 := components_length_le id2
  exact exactLoop_spec (id1.length + id2.length + 1)
    { s1 := some (JLI_StringDup id1), s2 := some (JLI_StringDup id2),
      end1 := none, end2 := none, res := 0 }
    (fun _ => rfl) (fun _ => rfl) (Or.inl rfl)
    (by simp only [remaining, JLI_StringDup]; omega)

/-- `JLI_PrefixVersionId` returns, and returns the first non-zero comparison of
the component pairs that both texts have. -/
theorem prefixVersionId_returns (id1 id2 : List Char) :
    ∃ r, JLI_PrefixVersionId id1 id2 = some r ∧
      LeastNonzero (min (components id1).length (components id2).length)
        (compareAt [] (components id1) (components id2)) r := by
  have h1 := components_length_le id1
  have h2 := components_length_le id2
  exact prefixLoop_spec (id1.length + id2.length + 1)
    { s1 := some (JLI_StringDup id1), s2 := some (JLI_StringDup id2),
      end1 := none, end2 := none, res := 0 }
    rfl rfl
    (by simp only [remaining, JLI_StringDup]; omega)

/-! ## Lemmas on `strchr` and on `acceptable_simple_element` -/

theorem strchr_nil (c : Char) : strchr [] c = if c = NUL then some 0 else none := rfl

theorem strchr_cons (a : Char) (s : List Char) (c : Char) :
    strchr (a :: s) c = if a = c then some 0 else (strchr s c).map (· + 1) := rfl

theorem strchr_isSome_iff (s : List Char) (c : Char) (hc : c ≠ NUL) :
    (strchr s c).isSome = true ↔ c ∈ s := by
  induction s with
  | nil => simp [strchr_nil, hc]
  | cons a s ih =>
    rw [strchr_cons]
    by_cases h : a = c
    · simp [h]
    · have h1 : ¬ c = a := fun e => h e.symm
      simp [h, h1, ih]

theorem hyphen_ne_NUL : '-' ≠ NUL := by decide

/-- The three branches of `acceptable_simple_element` on a non-empty
simple-element, which never reads the byte before it. -/
theorem acceptable_simple_element_star (release v : List Char) (before : Option Char) :
    acceptable_simple_element release before (v ++ ['*']) =
      if (strchr release '-').isSome then some (decide (strcmp release v = 0))
      else (JLI_PrefixVersionId release v).map (fun r => decide (r = 0)) := by
  simp [acceptable_simple_element]

theorem acceptable_simple_element_plus (release v : List Char) (before : Option Char) :
    acceptable_simple_element release before (v ++ ['+']) =
      if (strchr release '-').isSome then some (decide (strcmp release v = 0))
      else (JLI_ExactVersionId release v).map (fun r => decide (r ≥ 0)) := by
  simp [acceptable_simple_element]

theorem acceptable_simple_element_plain (release v : List Char) (before : Option Char)
    (c : Char) (hlast : v.getLast? = some c) (h1 : c ≠ '*') (h2 : c ≠ '+') :
    acceptable_simple_element release before v =
      (JLI_ExactVersionId release v).map (fun r => decide (r = 0)) := by
  simp [acceptable_simple_element, hlast, h1, h2]

/-! ## Lemmas on the loops of `acceptable_element` and `JLI_AcceptableRelease` -/

theorem pieces_nil (d : Char) : pieces d [] = [[]] := rfl

theorem pieces_cons (d c : Char) (s : List Char) :
    pieces d (c :: s) =
      if c = d then [] :: pieces d s
      else
        match pieces d s with
        | [] => [[c]]
        | h :: t => (c :: h) :: t := rfl

theorem pieces_ne_nil (d : Char) (s : List Char) : pieces d s ≠ [] := by
  cases s with
  | nil => simp [pieces_nil]
  | cons c s =>
    rw [pieces_cons]
    split
    · simp
    · split <;> simp

theorem pieces_length_le (d : Char) (s : List Char) : (pieces d s).length ≤ s.length + 1 := by
  induction s with
  | nil => simp [pieces_nil]
  | cons c s ih =>
    rw [pieces_cons]
    split
    · simp
      omega
    · split
      · simp
      · rename_i h t heq
        rw [heq] at ih
        simp at ih ⊢
        omega

/-- Cutting at the first delimiter yields the first piece, and what follows the
delimiter holds the other pieces. -/
theorem pieces_of_strchr (d : Char) (hd : d ≠ NUL) (t : List Char) :
    match strchr t d with
    | none => pieces d t = [t]
    | some i => pieces d t = t.take i :: pieces d (t.drop (i + 1)) := by
  induction t with
  | nil => simp [strchr_nil, pieces_nil, hd]
  | cons c t ih =>
    rw [strchr_cons, pieces_cons]
    by_cases hc : c = d
    · simp [hc]
    · simp only [hc, if_false]
      cases hs : strchr t d with
      | none =>
        rw [hs] at ih
        simp only at ih
        simp [ih]
      | some j =>
        rw [hs] at ih
        simp only at ih
        simp [ih]

theorem ampersand_ne_NUL : '&' ≠ NUL := by decide

theorem space_ne_NUL : ' ' ≠ NUL := by decide

/-- On a non-empty simple-element `acceptable_simple_element` returns, and its
result does not depend on the byte before the simple-element. -/
theorem acceptable_simple_element_returns (release se : List Char) (hse : se ≠ []) :
    ∃ b, ∀ before, acceptable_simple_element release before se = some b := by
  obtain ⟨c, hc⟩ : ∃ c, se.getLast? = some c := by
    cases h : se.getLast? with
    | none => exact absurd (List.getLast?_eq_none_iff.1 h) hse
    | some c => exact ⟨c, rfl⟩
  obtain ⟨p, hp, _⟩ := prefixVersionId_returns release se.dropLast
  obtain ⟨e, he, _⟩ := exactVersionId_returns release se.dropLast
  obtain ⟨e1, he1, _⟩ := exactVersionId_returns release se
  by_cases h1 : c = '*'
  · by_cases hh : (strchr release '-').isSome = true
    · exact ⟨decide (strcmp release se.dropLast = 0), fun before => by
        simp [acceptable_simple_element, hc, h1, hh]⟩
    · exact ⟨decide (p = 0), fun before => by
        simp [acceptable_simple_element, hc, h1, hh, hp]⟩
  · by_cases h2 : c = '+'
    · by_cases hh : (strchr release '-').isSome = true
      · exact ⟨decide (strcmp release se.dropLast = 0), fun before => by
          simp [acceptable_simple_element, hc, h2, hh]⟩
      · exact ⟨decide (e ≥ 0), fun before => by
          simp [acceptable_simple_element, hc, h2, hh, he]⟩
    · exact ⟨decide (e1 = 0), fun before => by
        simp [acceptable_simple_element, hc, h1, h2, he1]⟩

theorem acceptable_element_loop_succ (release : List Char) (n : Nat) (before : Option Char)
    (element : List Char) :
    acceptable_element_loop release (n + 1) before element =
      match strchr element '&' with
      | none =>
        (match acceptable_simple_element release before element with
          | none => none
          | some false => some false
          | some true => some true)
      | some i =>
        (match acceptable_simple_element release before (element.take i) with
          | none => none
          | some false => some false
          | some true =>
            acceptable_element_loop release n (some NUL) (element.drop (i + 1))) := by
  cases h : strchr element '&' <;> simp only [acceptable_element_loop, h]

theorem acceptableReleaseLoop_succ (release : List Char) (n : Nat) (before : Option Char)
    (vs : List Char) :
    acceptableReleaseLoop release (n + 1) before vs =
      match strchr vs ' ' with
      | none =>
        (match acceptable_element release before vs with
          | none => none
          | some true => some true
          | some false => some false)
      | some i =>
        (match acceptable_element release before (vs.take i) with
          | none => none
          | some true => some true
          | some false => acceptableReleaseLoop release n (some NUL) (vs.drop (i + 1))) := by
  cases h : strchr vs ' ' <;> simp only [acceptableReleaseLoop, h]

/-- The loop of `acceptable_element` over non-empty simple-elements: it returns,
and returns true exactly when every simple-element is accepted. -/
theorem acceptable_element_loop_spec (release : List Char) (bf : Option Char) (n : Nat)
    (before : Option Char) (element : List Char)
    (hne : ∀ se ∈ pieces '&' element, se ≠ [])
    (hn : (pieces '&' element).length ≤ n) :
    ∃ b, acceptable_element_loop release n before element = some b ∧
      (b = true ↔
        ∀ se ∈ pieces '&' element, acceptable_simple_element release bf se = some true) := by
  induction n generalizing before element with
  | zero =>
    exfalso
    have := List.length_pos.2 (pieces_ne_nil '&' element)
    omega
  | succ n ih =>
    have key := pieces_of_strchr '&' ampersand_ne_NUL element
    rw [acceptable_element_loop_succ]
    cases hs : strchr element '&' with
    | none =>
      rw [hs] at key
      simp only at key
      obtain ⟨b, hb⟩ := acceptable_simple_element_returns release element
        (hne element (by rw [key]; exact List.mem_singleton_self _))
      simp only [hb before, key, List.mem_singleton, forall_eq, hb bf]
      cases b
      · exact ⟨false, rfl, by simp⟩
      · exact ⟨true, rfl, by simp⟩
    | some i =>
      rw [hs] at key
      simp only at key
      obtain ⟨b, hb⟩ := acceptable_simple_element_returns release (element.take i)
        (hne _ (by rw [key]; exact List.mem_cons_self _ _))
      simp only [hb before, key, List.forall_mem_cons, hb bf]
      cases b
      · exact ⟨false, rfl, by simp⟩
      · obtain ⟨b1, hb1, hspec⟩ := ih (some NUL) (element.drop (i + 1))
          (fun se hse => hne se (by rw [key]; exact List.mem_cons_of_mem _ hse))
          (by rw [key] at hn; simp only [List.length_cons] at hn; omega)
        exact ⟨b1, hb1, by simpa using hspec⟩

/-- `acceptable_element` on an element whose simple-elements are non-empty. -/
theorem acceptable_element_spec (release : List Char) (bf before : Option Char)
    (element : List Char) (hne : ∀ se ∈ pieces '&' element, se ≠ []) :
    ∃ b, acceptable_element release before element = some b ∧
      (b = true ↔
        ∀ se ∈ pieces '&' element, acceptable_simple_element release bf se = some true) :=
  acceptable_element_loop_spec release bf (element.length + 1) before element hne
    (pieces_length_le '&' element)

/-- The loop of `JLI_AcceptableRelease` over elements whose simple-elements are
non-empty: it returns, and returns true exactly when some element has all its
simple-elements accepted. -/
theorem acceptableReleaseLoop_spec (release : List Char) (bf : Option Char) (n : Nat)
    (before : Option Char) (vs : List Char)
    (hne : ∀ e ∈ pieces ' ' vs, ∀ se ∈ pieces '&' e, se ≠ [])
    (hn : (pieces ' ' vs).length ≤ n) :
    ∃ b, acceptableReleaseLoop release n before vs = some b ∧
      (b = true ↔
        ∃ e ∈ pieces ' ' vs,
          ∀ se ∈ pieces '&' e, acceptable_simple_element release bf se = some true) := by
  induction n generalizing before vs with
  | zero =>
    exfalso
    have := List.length_pos.2 (pieces_ne_nil ' ' vs)
    omega
  | succ n ih =>
    have key := pieces_of_strchr ' ' space_ne_NUL vs
    rw [acceptableReleaseLoop_succ]
    cases hs : strchr vs ' ' with
    | none =>
      rw [hs] at key
      simp only at key
      obtain ⟨b, hb, hspec⟩ := acceptable_element_spec release bf before vs
        (hne vs (by rw [key]; exact List.mem_singleton_self _))
      simp only [hb, key, List.mem_singleton, exists_eq_left]
      cases b
      · exact ⟨false, rfl, by simpa using hspec⟩
      · exact ⟨true, rfl, by simpa using hspec⟩
    | some i =>
      rw [hs] at key
      simp only at key
      obtain ⟨b, hb, hspec⟩ := acceptable_element_spec release bf before (vs.take i)
        (hne _ (by rw [key]; exact List.mem_cons_self _ _))
      simp only [hb, key, List.exists_mem_cons_iff]
      cases b
      · obtain ⟨b1, hb1, hspec1⟩ := ih (some NUL) (vs.drop (i + 1))
          (fun e he => hne e (by rw [key]; exact List.mem_cons_of_mem _ he))
          (by rw [key] at hn; simp only [List.length_cons] at hn; omega)
        refine ⟨b1, hb1, ?_⟩
        rw [hspec1]
        have hno : ¬ ∀ se ∈ pieces '&' (List.take i vs),
            acceptable_simple_element release bf se = some true := by
          intro h
          have := hspec.2 h
          cases this
        simp [hno]
      · refine ⟨true, rfl, ?_⟩
        have hyes := hspec.1 rfl
        simp only [true_iff]
        exact Or.inl hyes

/-! ## Lemmas on `valid_simple_element` -/

theorem strpbrk_isSome_iff (s accept : List Char) :
    (strpbrk s accept).isSome = true ↔ ∃ c ∈ s, c ∈ accept := by
  induction s with
  | nil => simp [strpbrk_nil]
  | cons a s ih =>
    rw [strpbrk_cons]
    by_cases h : a ∈ accept
    · simp [h]
    · simp [h, ih]

theorem strchr_separators_isSome (c : Char) (hc : c ≠ NUL) :
    (strchr separators c).isSome = true ↔ IsSeparator c := by
  unfold IsSeparator
  simp only [separators, strchr_cons, strchr_nil, if_neg hc]
  by_cases h1 : '.' = c
  · simp [h1.symm]
  · by_cases h2 : '-' = c
    · simp [h2.symm]
    · by_cases h3 : '_' = c
      · simp [h3.symm]
      · have e1 : ¬ c = '.' := fun e => h1 e.symm
        have e2 : ¬ c = '-' := fun e => h2 e.symm
        have e3 : ¬ c = '_' := fun e => h3 e.symm
        simp [h1, h2, h3, e1, e2, e3]

theorem adjacentLoop_zero (p : List Char) : adjacentLoop 0 p = true := rfl

theorem adjacentLoop_succ (n : Nat) (p : List Char) :
    adjacentLoop (n + 1) p =
      if (strchr separators (deref p)).isSome ∧ (strchr separators (deref (p.drop 1))).isSome
      then false
      else adjacentLoop n (p.drop 1) := rfl

theorem isCStr_cons {a : Char} {s : List Char} (h : IsCStr (a :: s)) :
    a ≠ NUL ∧ IsCStr s :=
  ⟨h a (List.mem_cons_self _ _), fun c hc => h c (List.mem_cons_of_mem _ hc)⟩

theorem isCStr_append {s t : List Char} (h : IsCStr (s ++ t)) : IsCStr s ∧ IsCStr t :=
  ⟨fun c hc => h c (List.mem_append_left _ hc), fun c hc => h c (List.mem_append_right _ hc)⟩

/-- The loop for property 3, run from the first character to the last one,
finds no pair of adjacent separators exactly when there is none. -/
theorem adjacentLoop_iff (n : Nat) (t : List Char) (hc : IsCStr t) (hlen : t.length = n + 1) :
    adjacentLoop n t = true ↔ t.Chain' (fun a b => ¬ (IsSeparator a ∧ IsSeparator b)) := by
  induction n generalizing t with
  | zero =>
    match t, hlen with
    | [a], _ => simp [adjacentLoop_zero]
  | succ n ih =>
    match t, hlen, hc with
    | a :: b :: r, hlen, hc =>
      obtain ⟨ha, hc1⟩ := isCStr_cons hc
      obtain ⟨hb, _⟩ := isCStr_cons hc1
      have hl : (b :: r).length = n + 1 := by simpa using hlen
      rw [adjacentLoop_succ, List.chain'_cons, ← ih (b :: r) hc1 hl]
      simp only [deref, List.headD_cons, List.drop_one, List.tail_cons,
        strchr_separators_isSome a ha, strchr_separators_isSome b hb]
      by_cases h : IsSeparator a ∧ IsSeparator b
      · simp [h]
      · simp [h]

theorem eq_nil_or_snoc (s : List Char) : s = [] ∨ ∃ t c, s = t ++ [c] := by
  rcases List.eq_nil_or_concat s with h | ⟨t, c, h⟩
  · exact Or.inl h
  · exact Or.inr ⟨t, c, by rw [h, List.concat_eq_append]⟩

/-- The checks made on the text left after the removal of the modifier are the
three properties. -/
theorem versionIdChecks_iff (t : List Char) (hne : t ≠ []) (hc : IsCStr t) :
    versionIdChecks t (t.length - 1) = true ↔ ThreeProperties t := by
  obtain ⟨a, r, rfl⟩ := List.exists_cons_of_ne_nil hne
  obtain ⟨u, z, hz⟩ : ∃ u z, a :: r = u ++ [z] := by
    rcases eq_nil_or_snoc (a :: r) with h | ⟨u, z, h⟩
    · cases h
    · exact ⟨u, z, h⟩
  have ha := (isCStr_cons hc).1
  have hzc : z ≠ NUL := hc z (by rw [hz]; simp)
  have hdrop : (a :: r).drop ((a :: r).length - 1) = [z] := by
    rw [hz]
    simp
  have hlast : (a :: r).getLast? = some z := by
    rw [hz]
    exact List.getLast?_concat _
  have h3 := adjacentLoop_iff ((a :: r).length - 1) (a :: r) hc (by simp)
  have h1 : ¬ ((strpbrk (a :: r) [' ', '&', '+', '*']).isSome = true) ↔
      ∀ c ∈ a :: r, c ≠ ' ' ∧ c ≠ '&' ∧ c ≠ '+' ∧ c ≠ '*' := by
    rw [strpbrk_isSome_iff]
    constructor
    · intro h c hcm
      refine ⟨?_, ?_, ?_, ?_⟩ <;> intro e <;> exact h ⟨c, hcm, by simp [e]⟩
    · rintro h ⟨c, hcm, hacc⟩
      obtain ⟨c1, c2, c3, c4⟩ := h c hcm
      simp at hacc
      rcases hacc with e | e | e | e
      · exact c1 e
      · exact c2 e
      · exact c3 e
      · exact c4 e
  have h2 : ¬ ((strchr separators (deref (a :: r))).isSome = true ∨
        (strchr separators (deref [z])).isSome = true) ↔
      ((∀ c, (a :: r).head? = some c → ¬ IsSeparator c) ∧
        (∀ c, (a :: r).getLast? = some c → ¬ IsSeparator c)) := by
    rw [hlast]
    simp only [deref, List.headD_cons, strchr_separators_isSome a ha,
      strchr_separators_isSome z hzc, List.head?_cons, Option.some.injEq, forall_eq']
    tauto
  unfold versionIdChecks ThreeProperties
  rw [hdrop, ← h1, ← h2, ← h3]
  by_cases g1 : (strpbrk (a :: r) [' ', '&', '+', '*']).isSome = true
  · simp [g1]
  · by_cases g2 : ((strchr separators (deref (a :: r))).isSome = true ∨
        (strchr separators (deref [z])).isSome = true)
    · rw [if_neg g1, if_pos g2]
      simp [g2]
    · rw [if_neg g1, if_neg g2]
      simp [g1, g2]

theorem stripModifier_concat (t : List Char) (c : Char) :
    stripModifier (t ++ [c]) = if IsModifier c then t else t ++ [c] := by
  simp [stripModifier]

/-- The body of `valid_simple_element` on a non-empty text, written with its
last character apart. -/
theorem valid_simple_element_concat (t : List Char) (c : Char) :
    valid_simple_element (some (t ++ [c])) =
      if IsModifier c then (if t = [] then false else versionIdChecks t (t.length - 1))
      else versionIdChecks (t ++ [c]) ((t ++ [c]).length - 1) := by
  have hm : (c = '*' ∨ c = '+') ↔ IsModifier c := by
    unfold IsModifier
    tauto
  by_cases h : IsModifier c
  · have h' := hm.2 h
    by_cases ht : t = []
    · subst ht
      simp [valid_simple_element, deref, h, h']
    · have hl : t.length ≠ 0 := fun e => ht (List.length_eq_zero.1 e)
      simp [valid_simple_element, versionIdChecks, deref, h, h', ht, hl]
  · have h' : ¬ (c = '*' ∨ c = '+') := fun e => h (hm.1 e)
    simp [valid_simple_element, versionIdChecks, deref, h, h']

/-- `valid_simple_element` in terms of the three properties. -/
theorem valid_simple_element_iff_properties (s : List Char) (hs : IsCStr s) :
    valid_simple_element (some s) = true ↔
      s ≠ [] ∧ stripModifier s ≠ [] ∧ ThreeProperties (stripModifier s) := by
  rcases eq_nil_or_snoc s with h | ⟨t, c, h⟩
  · subst h
    simp [valid_simple_element]
  · subst h
    have hct := (isCStr_append hs).1
    rw [valid_simple_element_concat, stripModifier_concat]
    by_cases hm : IsModifier c
    · simp only [hm, if_true]
      by_cases ht : t = []
      · simp [ht]
      · simp [ht, versionIdChecks_iff t ht hct]
    · simp only [hm, if_false]
      have hne : t ++ [c] ≠ [] := by simp
      rw [versionIdChecks_iff (t ++ [c]) hne hs]
      simp

/-! ## Lemmas on the grammar -/

theorem gchars_iff (s : List Char) : GChars s ↔ ∀ x ∈ s, IsGrammarChar x := by
  constructor
  · intro h
    induction h with
    | nil => intro x hx; cases hx
    | cons c s hc _ ih =>
      intro x hx
      rcases List.mem_cons.1 hx with rfl | hx
      · exact hc
      · exact ih x hx
  · intro h
    induction s with
    | nil => exact GChars.nil
    | cons c s ih =>
      exact GChars.cons c s (h c (List.mem_cons_self _ _))
        (ih (fun x hx => h x (List.mem_cons_of_mem _ hx)))

theorem gstring_iff (s : List Char) : GString s ↔ s ≠ [] ∧ ∀ x ∈ s, IsGrammarChar x := by
  constructor
  · rintro ⟨c, cs, hc, hcs, rfl⟩
    refine ⟨by simp, ?_⟩
    intro x hx
    rcases List.mem_cons.1 hx with rfl | hx
    · exact hc
    · exact (gchars_iff cs).1 hcs x hx
  · rintro ⟨hne, h⟩
    obtain ⟨c, cs, rfl⟩ := List.exists_cons_of_ne_nil hne
    exact ⟨c, cs, h c (List.mem_cons_self _ _),
      (gchars_iff cs).2 (fun x hx => h x (List.mem_cons_of_mem _ hx)), rfl⟩

theorem plain_of_grammarChar {c : Char} (h : IsGrammarChar c) : Plain c := by
  obtain ⟨h1, h2, _, h4⟩ := h
  unfold IsModifier at h4
  exact ⟨h1, h2, fun e => h4 (Or.inl e), fun e => h4 (Or.inr e)⟩

theorem plain_of_separator {c : Char} (h : IsSeparator c) : Plain c := by
  unfold Plain
  rcases h with rfl | rfl | rfl <;> decide

theorem grammarChar_of_plain {c : Char} (h : Plain c) (hs : ¬ IsSeparator c) :
    IsGrammarChar c := by
  obtain ⟨h1, h2, h3, h4⟩ := h
  refine ⟨h1, h2, hs, ?_⟩
  rintro (e | e)
  · exact h3 e
  · exact h4 e

theorem threeProperties_iff (t : List Char) :
    ThreeProperties t ↔
      (∀ c, t.head? = some c → ¬ IsSeparator c) ∧ TailProperties t := by
  unfold ThreeProperties TailProperties Plain
  tauto

theorem tailProperties_nil : TailProperties [] := by
  refine ⟨?_, ?_, List.chain'_nil⟩
  · intro c hc
    cases hc
  · intro c hc
    simp at hc

theorem chain_of_no_separator (s : List Char) (h : ∀ x ∈ s, ¬ IsSeparator x) :
    s.Chain' (fun a b => ¬ (IsSeparator a ∧ IsSeparator b)) := by
  induction s with
  | nil => exact List.chain'_nil
  | cons a s ih =>
    rw [List.chain'_cons']
    refine ⟨?_, ih (fun x hx => h x (List.mem_cons_of_mem _ hx))⟩
    intro y _ hy
    exact h a (List.mem_cons_self _ _) hy.1

/-- A `string` put before a text with the tail properties gives a text with the
tail properties. -/
theorem tailProperties_string_append (s r : List Char) (hs : GString s)
    (hr : TailProperties r) : TailProperties (s ++ r) := by
  obtain ⟨_, hall⟩ := (gstring_iff s).1 hs
  obtain ⟨hr1, hr2, hr3⟩ := hr
  refine ⟨?_, ?_, ?_⟩
  · intro c hc
    rcases List.mem_append.1 hc with h | h
    · exact plain_of_grammarChar (hall c h)
    · exact hr1 c h
  · intro c hc
    rw [List.getLast?_append] at hc
    cases hl : r.getLast? with
    | none =>
      rw [hl] at hc
      exact (hall c (List.mem_of_mem_getLast? (by simpa using hc))).2.2.1
    | some z =>
      rw [hl] at hc
      have hcz : z = c := by simpa using hc
      exact hcz ▸ hr2 z hl
  · rw [List.chain'_append]
    refine ⟨chain_of_no_separator s (fun x hx => (hall x hx).2.2.1), hr3, ?_⟩
    intro x hx y _ h
    exact (hall x (List.mem_of_mem_getLast? hx)).2.2.1 h.1

theorem gstring_head (s r : List Char) (hs : GString s) :
    ∃ c, (s ++ r).head? = some c ∧ IsGrammarChar c := by
  obtain ⟨c, cs, hc, _, rfl⟩ := hs
  exact ⟨c, rfl, hc⟩

theorem gtail_tailProperties (r : List Char) (h : GTail r) : TailProperties r := by
  induction h with
  | nil => exact tailProperties_nil
  | cons sep s rest hsep hs _ ih =>
    obtain ⟨h1, h2, h3⟩ := tailProperties_string_append s rest hs ih
    obtain ⟨c, hhead, hc⟩ := gstring_head s rest hs
    have hne : s ++ rest ≠ [] := by
      intro e
      rw [e] at hhead
      cases hhead
    refine ⟨?_, ?_, ?_⟩
    · intro x hx
      rcases List.mem_cons.1 hx with rfl | hx
      · exact plain_of_separator hsep
      · exact h1 x hx
    · intro x hx
      obtain ⟨a, u, hu⟩ := List.exists_cons_of_ne_nil hne
      rw [hu, List.getLast?_cons_cons, ← hu] at hx
      exact h2 x hx
    · rw [List.chain'_cons']
      refine ⟨?_, h3⟩
      intro y hy hsy
      rw [hhead] at hy
      have hyc : c = y := by simpa using hy
      exact hc.2.2.1 (hyc ▸ hsy.2)

/-- Every text derivable from `version-id` is non-empty and has the three
properties. -/
theorem gversionId_properties (t : List Char) (h : GVersionId t) :
    t ≠ [] ∧ ThreeProperties t := by
  obtain ⟨s, r, hs, hr, rfl⟩ := h
  obtain ⟨c, hhead, hc⟩ := gstring_head s r hs
  refine ⟨?_, (threeProperties_iff _).2
    ⟨?_, tailProperties_string_append s r hs (gtail_tailProperties r hr)⟩⟩
  · intro e
    rw [e] at hhead
    cases hhead
  · intro x hx
    rw [hhead] at hx
    have hxc : c = x := by simpa using hx
    exact hxc ▸ hc.2.2.1

theorem tailProperties_tail (a b : Char) (u : List Char) (h : TailProperties (a :: b :: u)) :
    TailProperties (b :: u) := by
  obtain ⟨h1, h2, h3⟩ := h
  refine ⟨fun c hc => h1 c (List.mem_cons_of_mem _ hc), ?_, (List.chain'_cons.1 h3).2⟩
  intro c hc
  exact h2 c (by rw [List.getLast?_cons_cons]; exact hc)

/-- A text with the tail properties is derivable from `( separator string )*`
when it starts with a separator, and from `version-id` when it starts with
another character. -/
theorem derivable_of_tailProperties (t : List Char) (h : TailProperties t) :
    (∀ a, t.head? = some a → IsSeparator a → GTail t) ∧
      (∀ a, t.head? = some a → ¬ IsSeparator a → GVersionId t) := by
  induction t with
  | nil =>
    constructor <;>
    · intro a ha
      cases ha
  | cons a t ih =>
    cases t with
    | nil =>
      constructor
      · intro x hx hsep
        have hxa : a = x := by simpa using hx
        exact absurd (hxa ▸ hsep) (h.2.1 a rfl)
      · intro x hx hns
        have hxa : a = x := by simpa using hx
        have hg : IsGrammarChar a :=
          grammarChar_of_plain (h.1 a (List.mem_cons_self _ _)) (hxa ▸ hns)
        exact ⟨[a], [], ⟨a, [], hg, GChars.nil, rfl⟩, GTail.nil, rfl⟩
    | cons b u =>
      obtain ⟨ih1, ih2⟩ := ih (tailProperties_tail a b u h)
      have hchain : ¬ (IsSeparator a ∧ IsSeparator b) := (List.chain'_cons.1 h.2.2).1
      constructor
      · intro x hx hsep
        have hxa : a = x := by simpa using hx
        have hsa : IsSeparator a := hxa ▸ hsep
        have hnb : ¬ IsSeparator b := fun hb => hchain ⟨hsa, hb⟩
        obtain ⟨s, r, hs, hr, hsr⟩ := ih2 b rfl hnb
        rw [hsr]
        exact GTail.cons a s r hsa hs hr
      · intro x hx hns
        have hxa : a = x := by simpa using hx
        have hg : IsGrammarChar a :=
          grammarChar_of_plain (h.1 a (List.mem_cons_self _ _)) (hxa ▸ hns)
        by_cases hb : IsSeparator b
        · exact ⟨[a], b :: u, ⟨a, [], hg, GChars.nil, rfl⟩, ih1 b rfl hb, rfl⟩
        · obtain ⟨s, r, ⟨c, cs, hc, hcs, hs⟩, hr, hsr⟩ := ih2 b rfl hb
          refine ⟨a :: s, r, ⟨a, s, hg, ?_, rfl⟩, hr, by rw [hsr]; rfl⟩
          rw [hs]
          exact GChars.cons c cs hc hcs

/-- The texts derivable from `version-id` are the non-empty texts with the
three properties. -/
theorem gversionId_iff (t : List Char) : GVersionId t ↔ t ≠ [] ∧ ThreeProperties t := by
  constructor
  · exact gversionId_properties t
  · rintro ⟨hne, h3⟩
    obtain ⟨a, u, rfl⟩ := List.exists_cons_of_ne_nil hne
    obtain ⟨hhead, htail⟩ := (threeProperties_iff _).1 h3
    exact (derivable_of_tailProperties _ htail).2 a rfl (hhead a rfl)

/-- The texts derivable from `simple-element` are the non-empty texts that,
once at most one trailing modifier is removed, are non-empty and have the three
properties. -/
theorem gsimpleElement_iff (s : List Char) :
    GSimpleElement s ↔
      s ≠ [] ∧ stripModifier s ≠ [] ∧ ThreeProperties (stripModifier s) := by
  constructor
  · rintro (h | ⟨v, m, hv, hm, rfl⟩)
    · obtain ⟨hne, h3⟩ := gversionId_properties s h
      rcases eq_nil_or_snoc s with e | ⟨t, c, e⟩
      · exact absurd e hne
      · have hc : ¬ IsModifier c := by
          have hp := h3.1 c (by rw [e]; simp)
          rintro (e1 | e1)
          · exact hp.2.2.1 e1
          · exact hp.2.2.2 e1
        have hstrip : stripModifier s = s := by
          rw [e, stripModifier_concat, if_neg hc]
        rw [hstrip]
        exact ⟨hne, hne, h3⟩
    · obtain ⟨hne, h3⟩ := gversionId_properties v hv
      rw [stripModifier_concat, if_pos hm]
      exact ⟨by simp, hne, h3⟩
  · rintro ⟨hne, hne1, h3⟩
    rcases eq_nil_or_snoc s with e | ⟨t, c, e⟩
    · exact absurd e hne
    · subst e
      rw [stripModifier_concat] at hne1 h3
      by_cases hm : IsModifier c
      · rw [if_pos hm] at hne1 h3
        exact Or.inr ⟨t, c, (gversionId_iff t).2 ⟨hne1, h3⟩, hm, rfl⟩
      · rw [if_neg hm] at hne1 h3
        exact Or.inl ((gversionId_iff _).2 ⟨hne1, h3⟩)

/-! ## Lemmas on the loops of `valid_element` and `JLI_ValidVersionString` -/

theorem valid_element_loop_succ (n : Nat) (element : List Char) :
    valid_element_loop (n + 1) element =
      match strchr element '&' with
      | none => if valid_simple_element (some element) then some true else some false
      | some i =>
        if valid_simple_element (some (element.take i)) then
          valid_element_loop n (element.drop (i + 1))
        else some false := by
  cases h : strchr element '&' <;> simp only [valid_element_loop, h]

theorem validVersionStringLoop_succ (n : Nat) (vs : List Char) :
    validVersionStringLoop (n + 1) vs =
      match strchr vs ' ' with
      | none =>
        (match valid_element (some vs) with
          | none => none
          | some false => some false
          | some true => some true)
      | some i =>
        (match valid_element (some (vs.take i)) with
          | none => none
          | some false => some false
          | some true => validVersionStringLoop n (vs.drop (i + 1))) := by
  cases h : strchr vs ' ' <;> simp only [validVersionStringLoop, h]

/-- The loop of `valid_element` returns, and returns true exactly when every
`'&'`-separated piece is a valid simple-element. -/
theorem valid_element_loop_spec (n : Nat) (element : List Char)
    (hn : (pieces '&' element).length ≤ n) :
    ∃ b, valid_element_loop n element = some b ∧
      (b = true ↔ ∀ se ∈ pieces '&' element, valid_simple_element (some se) = true) := by
  induction n generalizing element with
  | zero =>
    exfalso
    have := List.length_pos.2 (pieces_ne_nil '&' element)
    omega
  | succ n ih =>
    have key := pieces_of_strchr '&' ampersand_ne_NUL element
    rw [valid_element_loop_succ]
    cases hs : strchr element '&' with
    | none =>
      rw [hs] at key
      simp only at key
      simp only [key, List.mem_singleton, forall_eq]
      cases hv : valid_simple_element (some element)
      · exact ⟨false, by simp, by simp⟩
      · exact ⟨true, by simp, by simp⟩
    | some i =>
      rw [hs] at key
      simp only at key
      simp only [key, List.forall_mem_cons]
      cases hv : valid_simple_element (some (element.take i))
      · exact ⟨false, by simp, by simp⟩
      · obtain ⟨b, hb, hspec⟩ := ih (element.drop (i + 1))
          (by rw [key] at hn; simp only [List.length_cons] at hn; omega)
        exact ⟨b, by simpa using hb, by simpa using hspec⟩

/-- `valid_element` returns, and returns true exactly on the non-empty elements
all of whose `'&'`-separated pieces are valid simple-elements. -/
theorem valid_element_spec (e : List Char) :
    ∃ b, valid_element (some e) = some b ∧
      (b = true ↔
        e ≠ [] ∧ ∀ se ∈ pieces '&' e, valid_simple_element (some se) = true) := by
  by_cases he : e = []
  · subst he
    exact ⟨false, by simp [valid_element], by simp⟩
  · have hl : e.length ≠ 0 := fun h => he (List.length_eq_zero.1 h)
    obtain ⟨b, hb, hspec⟩ := valid_element_loop_spec (e.length + 1) e (pieces_length_le '&' e)
    exact ⟨b, by simpa [valid_element, hl] using hb, by simpa [he] using hspec⟩

/-- The loop of `JLI_ValidVersionString` returns, and returns true exactly when
every space-separated piece is a valid element. -/
theorem validVersionStringLoop_spec (n : Nat) (vs : List Char)
    (hn : (pieces ' ' vs).length ≤ n) :
    ∃ b, validVersionStringLoop n vs = some b ∧
      (b = true ↔
        ∀ e ∈ pieces ' ' vs,
          e ≠ [] ∧ ∀ se ∈ pieces '&' e, valid_simple_element (some se) = true) := by
  induction n generalizing vs with
  | zero =>
    exfalso
    have := List.length_pos.2 (pieces_ne_nil ' ' vs)
    omega
  | succ n ih =>
    have key := pieces_of_strchr ' ' space_ne_NUL vs
    rw [validVersionStringLoop_succ]
    cases hs : strchr vs ' ' with
    | none =>
      rw [hs] at key
      simp only at key
      obtain ⟨b, hb, hspec⟩ := valid_element_spec vs
      simp only [key, List.mem_singleton, forall_eq, hb]
      cases b
      · exact ⟨false, rfl, by simpa using hspec⟩
      · exact ⟨true, rfl, by simpa using hspec⟩
    | some i =>
      rw [hs] at key
      simp only at key
      obtain ⟨b, hb, hspec⟩ := valid_element_spec (vs.take i)
      simp only [key, List.forall_mem_cons, hb]
      cases b
      · refine ⟨false, rfl, ?_⟩
        have hno : ¬ (List.take i vs ≠ [] ∧
            ∀ se ∈ pieces '&' (List.take i vs), valid_simple_element (some se) = true) := by
          intro h
          have := hspec.2 h
          cases this
        simp only [Bool.false_eq_true, false_iff]
        exact fun h => hno h.1
      · obtain ⟨b1, hb1, hspec1⟩ := ih (vs.drop (i + 1))
          (by rw [key] at hn; simp only [List.length_cons] at hn; omega)
        refine ⟨b1, hb1, ?_⟩
        rw [hspec1]
        have hyes := hspec.1 rfl
        constructor
        · exact fun h => ⟨hyes, h⟩
        · exact fun h => h.2

/-- `JLI_ValidVersionString` returns, and returns true exactly on the non-empty
texts all of whose space-separated pieces are valid elements. -/
theorem validVersionString_spec (vs : List Char) :
    ∃ b, JLI_ValidVersionString (some vs) = some b ∧
      (b = true ↔
        vs ≠ [] ∧ ∀ e ∈ pieces ' ' vs,
          e ≠ [] ∧ ∀ se ∈ pieces '&' e, valid_simple_element (some se) = true) := by
  by_cases he : vs = []
  · subst he
    exact ⟨false, by simp [JLI_ValidVersionString], by simp⟩
  · have hl : vs.length ≠ 0 := fun h => he (List.length_eq_zero.1 h)
    obtain ⟨b, hb, hspec⟩ :=
      validVersionStringLoop_spec (vs.length + 1) vs (pieces_length_le ' ' vs)
    exact ⟨b, by simpa [JLI_ValidVersionString, JLI_StringDup, hl] using hb,
      by simpa [he] using hspec⟩

/-! ## Lemmas on reads before the buffer -/

theorem acceptable_element_ampersand (release rest : List Char) :
    acceptable_element release none ('&' :: rest) = none := rfl

theorem acceptableRelease_ampersand (release rest : List Char) :
    JLI_AcceptableRelease release ('&' :: rest) = none := by
  have hne : ¬ ('&' = ' ') := by decide
  unfold JLI_AcceptableRelease JLI_StringDup
  rw [List.length_cons, acceptableReleaseLoop_succ, strchr_cons, if_neg hne]
  cases h : strchr rest ' ' with
  | none => simp only [Option.map_none', acceptable_element_ampersand]
  | some j =>
    simp only [Option.map_some', List.take_succ_cons, acceptable_element_ampersand]

/-- `acceptable_simple_element` returns as soon as there is a byte to read at
`modifier`: the simple-element is non-empty or does not start its buffer. -/
theorem acceptable_simple_element_returns_of_readable (release : List Char)
    (before : Option Char) (se : List Char) (h : before.isSome ∨ se ≠ []) :
    ∃ b, acceptable_simple_element release before se = some b := by
  by_cases hse : se = []
  · subst hse
    rcases h with h | h
    · obtain ⟨c, rfl⟩ := Option.isSome_iff_exists.1 h
      obtain ⟨p, hp, _⟩ := prefixVersionId_returns release []
      obtain ⟨e, he, _⟩ := exactVersionId_returns release []
      by_cases h1 : c = '*'
      · by_cases hh : (strchr release '-').isSome = true
        · exact ⟨decide (strcmp release [] = 0), by
            simp [acceptable_simple_element, h1, hh]⟩
        · exact ⟨decide (p = 0), by simp [acceptable_simple_element, h1, hh, hp]⟩
      · by_cases h2 : c = '+'
        · by_cases hh : (strchr release '-').isSome = true
          · exact ⟨decide (strcmp release [] = 0), by
              simp [acceptable_simple_element, h2, hh]⟩
          · exact ⟨decide (e ≥ 0), by simp [acceptable_simple_element, h2, hh, he]⟩
        · exact ⟨decide (e = 0), by simp [acceptable_simple_element, h1, h2, he]⟩
    · exact absurd rfl h
  · obtain ⟨b, hb⟩ := acceptable_simple_element_returns release se hse
    exact ⟨b, hb before⟩

theorem strchr_cons_of_ne (c d : Char) (rest : List Char) (h : c ≠ d) :
    strchr (c :: rest) d = (strchr rest d).map (· + 1) := by
  rw [strchr_cons, if_neg h]

/-- The loop of `acceptable_element` returns when its first simple-element is
readable. -/
theorem acceptable_element_loop_returns (release : List Char) (n : Nat)
    (before : Option Char) (element : List Char)
    (h : before.isSome ∨ ∃ c rest, element = c :: rest ∧ c ≠ '&')
    (hn : (pieces '&' element).length ≤ n) :
    ∃ b, acceptable_element_loop release n before element = some b := by
  induction n generalizing before element with
  | zero =>
    exfalso
    have := List.length_pos.2 (pieces_ne_nil '&' element)
    omega
  | succ n ih =>
    have key := pieces_of_strchr '&' ampersand_ne_NUL element
    rw [acceptable_element_loop_succ]
    cases hs : strchr element '&' with
    | none =>
      have hread : before.isSome ∨ element ≠ [] := by
        rcases h with h | ⟨c, rest, he, _⟩
        · exact Or.inl h
        · exact Or.inr (by rw [he]; simp)
      obtain ⟨b, hb⟩ := acceptable_simple_element_returns_of_readable release before element hread
      simp only [hb]
      cases b
      · exact ⟨false, rfl⟩
      · exact ⟨true, rfl⟩
    | some i =>
      rw [hs] at key
      simp only at key
      have hread : before.isSome ∨ element.take i ≠ [] := by
        rcases h with h | ⟨c, rest, he, hc⟩
        · exact Or.inl h
        · right
          subst he
          rw [strchr_cons_of_ne c '&' rest hc] at hs
          cases hr : strchr rest '&' with
          | none =>
            rw [hr] at hs
            cases hs
          | some j =>
            rw [hr] at hs
            have : i = j + 1 := (Option.some.inj hs).symm
            subst this
            simp
      obtain ⟨b, hb⟩ := acceptable_simple_element_returns_of_readable release before _ hread
      simp only [hb]
      cases b
      · exact ⟨false, rfl⟩
      · exact ih (some NUL) _ (Or.inl rfl)
          (by rw [key] at hn; simp only [List.length_cons] at hn; omega)

/-- The loop of `JLI_AcceptableRelease` returns when its first simple-element
is readable. -/
theorem acceptableReleaseLoop_returns (release : List Char) (n : Nat)
    (before : Option Char) (vs : List Char)
    (h : before.isSome ∨ ∃ c rest, vs = c :: rest ∧ c ≠ ' ' ∧ c ≠ '&')
    (hn : (pieces ' ' vs).length ≤ n) :
    ∃ b, acceptableReleaseLoop release n before vs = some b := by
  induction n generalizing before vs with
  | zero =>
    exfalso
    have := List.length_pos.2 (pieces_ne_nil ' ' vs)
    omega
  | succ n ih =>
    have key := pieces_of_strchr ' ' space_ne_NUL vs
    rw [acceptableReleaseLoop_succ]
    cases hs : strchr vs ' ' with
    | none =>
      have hread : before.isSome ∨ ∃ c rest, vs = c :: rest ∧ c ≠ '&' := by
        rcases h with h | ⟨c, rest, he, _, hc⟩
        · exact Or.inl h
        · exact Or.inr ⟨c, rest, he, hc⟩
      obtain ⟨b, hb⟩ := acceptable_element_loop_returns release (vs.length + 1) before vs
        hread (pieces_length_le '&' vs)
      simp only [acceptable_element, hb]
      cases b
      · exact ⟨false, rfl⟩
      · exact ⟨true, rfl⟩
    | some i =>
      rw [hs] at key
      simp only at key
      have hread : before.isSome ∨ ∃ c rest, vs.take i = c :: rest ∧ c ≠ '&' := by
        rcases h with h | ⟨c, rest, he, hsp, hc⟩
        · exact Or.inl h
        · right
          subst he
          rw [strchr_cons_of_ne c ' ' rest hsp] at hs
          cases hr : strchr rest ' ' with
          | none =>
            rw [hr] at hs
            cases hs
          | some j =>
            rw [hr] at hs
            have : i = j + 1 := (Option.some.inj hs).symm
            subst this
            exact ⟨c, rest.take j, by simp, hc⟩
      obtain ⟨b, hb⟩ := acceptable_element_loop_returns release ((vs.take i).length + 1)
        before (vs.take i) hread (pieces_length_le '&' _)
      simp only [acceptable_element, hb]
      cases b
      · exact ih (some NUL) _ (Or.inl rfl)
          (by rw [key] at hn; simp only [List.length_cons] at hn; omega)
      · exact ⟨true, rfl⟩

/-- `JLI_AcceptableRelease` returns a boolean exactly on the version-strings
whose first character exists and is neither a space nor `'&'`. -/
theorem acceptableRelease_returns_iff (release vs : List Char) :
    (∃ b, JLI_AcceptableRelease release vs = some b) ↔
      ∃ c rest, vs = c :: rest ∧ c ≠ ' ' ∧ c ≠ '&' := by
  constructor
  · rintro ⟨b, hb⟩
    cases vs with
    | nil =>
      have : JLI_AcceptableRelease release [] = none := rfl
      rw [this] at hb
      cases hb
    | cons c rest =>
      refine ⟨c, rest, rfl, ?_, ?_⟩
      · intro hc
        subst hc
        have : JLI_AcceptableRelease release (' ' :: rest) = none := rfl
        rw [this] at hb
        cases hb
      · intro hc
        subst hc
        rw [acceptableRelease_ampersand] at hb
        cases hb
  · intro h
    exact acceptableReleaseLoop_returns release (vs.length + 1) none (JLI_StringDup vs)
      (Or.inr h) (pieces_length_le ' ' vs)

/-! ## Lemmas on the termination of the comparator loops -/

theorem components_length_eq (s : List Char) :
    (components s).length = separatorCount s + 1 := by
  induction s with
  | nil => rfl
  | cons c s ih =>
    rw [components_cons]
    unfold separatorCount at ih ⊢
    by_cases hc : c ∈ separators
    · rw [if_pos hc, List.countP_cons_of_pos _ _ (by simpa using hc), List.length_cons, ih]
    · rw [if_neg hc, List.countP_cons_of_neg _ _ (by simpa using hc)]
      cases hcs : components s with
      | nil => exact absurd hcs (components_ne_nil s)
      | cons h t =>
        rw [hcs] at ih
        simpa using ih

/-- The pointer left by `cutAtSeparator` obeys `SideStep`. -/
theorem sideStep_cutAtSeparator (t : List Char) (e : Option (List Char)) :
    SideStep (some t) (cutAtSeparator (some t) e).2 := by
  obtain ⟨h, _, hcomp⟩ := cutAtSeparator_some t e
  have hlen := components_length_eq t
  rw [hcomp, List.length_cons] at hlen
  unfold SideStep
  simp only
  cases hc : (cutAtSeparator (some t) e).2 with
  | none =>
    rw [hc] at hlen
    have h0 : separatorCount t = 0 := by
      simp only [remaining, List.length_nil] at hlen
      omega
    rw [if_pos h0]
  | some t1 =>
    rw [hc] at hlen
    simp only [remaining] at hlen
    rw [components_length_eq t1] at hlen
    have h0 : ¬ separatorCount t = 0 := by omega
    rw [if_neg h0]
    exact ⟨t1, rfl, by omega⟩

theorem exactBody_sideStep (l : Locals) (h1 : l.s1 = none → l.end1 = none)
    (h2 : l.s2 = none → l.end2 = none) (hs : l.s1.isSome ∨ l.s2.isSome) :
    ∃ l1, exactBody l = some l1 ∧ SideStep l.s1 l1.s1 ∧ SideStep l.s2 l1.s2 ∧
      (l1.s1 = none → l1.end1 = none) ∧ (l1.s2 = none → l1.end2 = none) := by
  rcases l with ⟨s1, s2, e1, e2, r⟩
  cases s1 with
  | none =>
    cases s2 with
    | none => simp at hs
    | some t2 =>
      obtain ⟨c2, hc2, _⟩ := cutAtSeparator_some t2 e2
      have he1 : e1 = none := h1 rfl
      subst he1
      refine ⟨_, by simp only [exactBody, cutAtSeparator_none, hc2]; rfl, ?_, ?_, ?_, ?_⟩
      · rfl
      · exact sideStep_cutAtSeparator t2 e2
      · exact fun _ => rfl
      · exact fun h => h
  | some t1 =>
    obtain ⟨c1, hc1, _⟩ := cutAtSeparator_some t1 e1
    cases s2 with
    | none =>
      have he2 : e2 = none := h2 rfl
      subst he2
      refine ⟨_, by simp only [exactBody, cutAtSeparator_none, hc1]; rfl, ?_, ?_, ?_, ?_⟩
      · exact sideStep_cutAtSeparator t1 e1
      · rfl
      · exact fun h => h
      · exact fun _ => rfl
    | some t2 =>
      obtain ⟨c2, hc2, _⟩ := cutAtSeparator_some t2 e2
      refine ⟨_, by simp only [exactBody, hc1, hc2]; rfl, ?_, ?_, ?_, ?_⟩
      · exact sideStep_cutAtSeparator t1 e1
      · exact sideStep_cutAtSeparator t2 e2
      · exact fun h => h
      · exact fun h => h

theorem prefixBody_sideStep (l : Locals) (hs1 : l.s1.isSome) (hs2 : l.s2.isSome) :
    ∃ l1, prefixBody l = some l1 ∧ SideStep l.s1 l1.s1 ∧ SideStep l.s2 l1.s2 := by
  rcases l with ⟨s1, s2, e1, e2, r⟩
  cases s1 with
  | none => simp at hs1
  | some t1 =>
    cases s2 with
    | none => simp at hs2
    | some t2 =>
      obtain ⟨c1, hc1, _⟩ := cutAtSeparator_some t1 e1
      obtain ⟨c2, hc2, _⟩ := cutAtSeparator_some t2 e2
      exact ⟨_, by simp only [prefixBody, hc1, hc2]; rfl,
        sideStep_cutAtSeparator t1 e1, sideStep_cutAtSeparator t2 e2⟩

/-- The loop of `JLI_ExactVersionId` ends within `max k1 k2 + 1` iterations,
`k1`, `k2` being the numbers of separators, and allowing more iterations does
not change what it returns. -/
theorem exactLoop_terminates (id1 id2 : List Char) (n : Nat)
    (hn : max (separatorCount id1) (separatorCount id2) + 1 ≤ n) :
    ∃ r, exactLoop n (loopEntry id1 id2) = some r ∧ JLI_ExactVersionId id1 id2 = some r := by
  have h1 := components_length_eq id1
  have h2 := components_length_eq id2
  obtain ⟨r, hr, hspec⟩ := exactLoop_spec n (loopEntry id1 id2)
    (fun _ => rfl) (fun _ => rfl) (Or.inl rfl)
    (by simp only [loopEntry, remaining, JLI_StringDup]; omega)
  obtain ⟨r1, hr1, hspec1⟩ := exactVersionId_returns id1 id2
  have := leastNonzero_unique _ _ _ _ _ (fun _ _ => rfl) hspec hspec1
  exact ⟨r, hr, by rw [hr1, this]⟩

/-- The loop of `JLI_PrefixVersionId` ends within `min k1 k2 + 1` iterations. -/
theorem prefixLoop_terminates (id1 id2 : List Char) (n : Nat)
    (hn : min (separatorCount id1) (separatorCount id2) + 1 ≤ n) :
    ∃ r, prefixLoop n (loopEntry id1 id2) = some r ∧ JLI_PrefixVersionId id1 id2 = some r := by
  have h1 := components_length_eq id1
  have h2 := components_length_eq id2
  obtain ⟨r, hr, hspec⟩ := prefixLoop_spec n (loopEntry id1 id2) rfl rfl
    (by simp only [loopEntry, remaining, JLI_StringDup]; omega)
  obtain ⟨r1, hr1, hspec1⟩ := prefixVersionId_returns id1 id2
  have := leastNonzero_unique _ _ _ _ _ (fun _ _ => rfl) hspec hspec1
  exact ⟨r, hr, by rw [hr1, this]⟩

/-! ## Lemmas on the symmetry of the comparators -/

theorem strcmp_antisymm (a b : List Char) : strcmp b a = - strcmp a b := by
  induction a generalizing b with
  | nil =>
    cases b with
    | nil => simp [strcmp_nil_nil]
    | cons y t =>
      rw [strcmp_cons_nil, strcmp_nil_cons]
      omega
  | cons x s ih =>
    cases b with
    | nil =>
      rw [strcmp_cons_nil, strcmp_nil_cons]
      omega
    | cons y t =>
      rw [strcmp_cons_cons, strcmp_cons_cons]
      by_cases h : x = y
      · subst h
        simp only [if_true]
        exact ih t
      · have h1 : ¬ y = x := fun e => h e.symm
        rw [if_neg h, if_neg h1]
        omega

theorem strcmp_self (a : List Char) : strcmp a a = 0 := by
  have := strcmp_antisymm a a
  omega

/-- Exchanging the operands of `comp_string` negates the result. -/
theorem comp_string_antisymm (a b : List Char) : comp_string b a = - comp_string a b := by
  unfold comp_string
  rw [isjavaint_eq a, isjavaint_eq b]
  by_cases ha : JavaIntText a
  · by_cases hb : JavaIntText b
    · have h1 := ha.2
      have h2 := hb.2
      simp only [if_pos ha, if_pos hb]
      rw [toJint_of_range _ (by omega) (by omega), toJint_of_range _ (by omega) (by omega)]
      omega
    · simp only [if_pos ha, if_neg hb]
      exact strcmp_antisymm a b
  · by_cases hb : JavaIntText b
    · simp only [if_neg ha, if_pos hb]
      exact strcmp_antisymm a b
    · simp only [if_neg ha, if_neg hb]
      exact strcmp_antisymm a b

theorem comp_string_self (a : List Char) : comp_string a a = 0 := by
  have := comp_string_antisymm a a
  omega

theorem compareAt_antisymm (pad : List Char) (c1 c2 : List (List Char)) (i : Nat) :
    compareAt pad c2 c1 i = - compareAt pad c1 c2 i :=
  comp_string_antisymm _ _

theorem leastNonzero_neg (n : Nat) (f : Nat → Int) (r : Int) (h : LeastNonzero n f r) :
    LeastNonzero n (fun i => - f i) (- r) := by
  rcases h with ⟨i, hi, hz, hne, hr⟩ | ⟨hz, hr⟩
  · refine Or.inl ⟨i, hi, ?_, ?_, ?_⟩
    · intro j hj
      simp only [hz j hj, neg_zero]
    · simp only [ne_eq, neg_eq_zero]
      exact hne
    · rw [hr]
  · refine Or.inr ⟨?_, ?_⟩
    · intro i hi
      simp only [hz i hi, neg_zero]
    · rw [hr, neg_zero]

theorem leastNonzero_of_all_zero (n : Nat) (f : Nat → Int) (r : Int)
    (hz : ∀ i, i < n → f i = 0) (h : LeastNonzero n f r) : r = 0 := by
  rcases h with ⟨i, hi, _, hne, _⟩ | ⟨_, hr⟩
  · exact absurd (hz i hi) hne
  · exact hr

theorem all_zero_of_leastNonzero_zero (n : Nat) (f : Nat → Int)
    (h : LeastNonzero n f 0) : ∀ i, i < n → f i = 0 := by
  rcases h with ⟨i, _, _, hne, hr⟩ | ⟨hz, _⟩
  · exact absurd hr.symm hne
  · exact hz

/-- Exchanging the arguments of `JLI_ExactVersionId` negates the result. -/
theorem exactVersionId_antisymm (a b : List Char) :
    ∃ r, JLI_ExactVersionId a b = some r ∧ JLI_ExactVersionId b a = some (- r) := by
  obtain ⟨r, hr, hspec⟩ := exactVersionId_returns a b
  obtain ⟨r1, hr1, hspec1⟩ := exactVersionId_returns b a
  refine ⟨r, hr, ?_⟩
  rw [hr1]
  have hn := leastNonzero_neg _ _ _ hspec
  rw [max_comm] at hspec1
  rw [leastNonzero_unique _ _ _ _ _ (fun i _ => compareAt_antisymm _ _ _ i) hspec1 hn]

/-- Exchanging the arguments of `JLI_PrefixVersionId` negates the result. -/
theorem prefixVersionId_antisymm (a b : List Char) :
    ∃ r, JLI_PrefixVersionId a b = some r ∧ JLI_PrefixVersionId b a = some (- r) := by
  obtain ⟨r, hr, hspec⟩ := prefixVersionId_returns a b
  obtain ⟨r1, hr1, hspec1⟩ := prefixVersionId_returns b a
  refine ⟨r, hr, ?_⟩
  rw [hr1]
  have hn := leastNonzero_neg _ _ _ hspec
  rw [min_comm] at hspec1
  rw [leastNonzero_unique _ _ _ _ _ (fun i _ => compareAt_antisymm _ _ _ i) hspec1 hn]

theorem exactVersionId_self (a : List Char) : JLI_ExactVersionId a a = some 0 := by
  obtain ⟨r, hr, hspec⟩ := exactVersionId_returns a a
  rw [hr, leastNonzero_of_all_zero _ _ _ (fun i _ => comp_string_self _) hspec]

theorem prefixVersionId_self (a : List Char) : JLI_PrefixVersionId a a = some 0 := by
  obtain ⟨r, hr, hspec⟩ := prefixVersionId_returns a a
  rw [hr, leastNonzero_of_all_zero _ _ _ (fun i _ => comp_string_self _) hspec]

/-! ## Lemmas on the relations between the two comparators -/

theorem getD_eq_of_lt (c : List (List Char)) (i : Nat) (d d1 : List Char)
    (h : i < c.length) : c.getD i d = c.getD i d1 := by
  induction c generalizing i with
  | nil => simp at h
  | cons a c ih =>
    cases i with
    | zero => simp
    | succ i =>
      simp only [List.getD_cons_succ]
      exact ih i (by simpa using h)

theorem compareAt_pad (d d1 : List Char) (c1 c2 : List (List Char)) (i : Nat)
    (h1 : i < c1.length) (h2 : i < c2.length) :
    compareAt d c1 c2 i = compareAt d1 c1 c2 i := by
  unfold compareAt
  rw [getD_eq_of_lt c1 i d d1 h1, getD_eq_of_lt c2 i d d1 h2]

/-- The Prefix Match is 0 as soon as the common component pairs all compare
equal. -/
theorem prefixVersionId_zero_of_common (a b : List Char)
    (h : ∀ i, i < (components a).length → i < (components b).length →
      comp_string ((components a).getD i []) ((components b).getD i []) = 0) :
    JLI_PrefixVersionId a b = some 0 := by
  obtain ⟨p, hp, hspec⟩ := prefixVersionId_returns a b
  rw [hp, leastNonzero_of_all_zero _ _ _ ?_ hspec]
  intro i hi
  exact h i (by omega) (by omega)

/-- An Exact Match that is 0 makes the Prefix Match 0. -/
theorem prefix_zero_of_exact_zero (a b : List Char)
    (h : JLI_ExactVersionId a b = some 0) : JLI_PrefixVersionId a b = some 0 := by
  obtain ⟨e, he, hspec⟩ := exactVersionId_returns a b
  have he0 : e = 0 := by
    rw [h] at he
    exact (Option.some.inj he).symm
  subst he0
  have hz := all_zero_of_leastNonzero_zero _ _ hspec
  apply prefixVersionId_zero_of_common
  intro i h1 h2
  have := hz i (by omega)
  rw [compareAt_pad zero_string [] _ _ i h1 h2] at this
  exact this

theorem mem_separators_iff (c : Char) : c ∈ separators ↔ IsSeparator c := by
  simp [separators, IsSeparator]

/-- Texts that differ only in which separator stands where have the same
components. -/
theorem components_congr (s t : List Char) (h : SameUpToSeparators s t) :
    components s = components t := by
  induction s generalizing t with
  | nil =>
    obtain ⟨hl, _⟩ := h
    have : t = [] := List.length_eq_zero.1 hl.symm
    rw [this]
  | cons a s ih =>
    cases t with
    | nil =>
      obtain ⟨hl, _⟩ := h
      simp at hl
    | cons b t =>
      obtain ⟨hl, hz⟩ := h
      have hst : SameUpToSeparators s t :=
        ⟨by simpa using hl, fun p hp => hz p (by
          rw [List.zip_cons_cons]
          exact List.mem_cons_of_mem _ hp)⟩
      have hab := hz (a, b) (by
        rw [List.zip_cons_cons]
        exact List.mem_cons_self _ _)
      rw [components_cons, components_cons, ih t hst]
      rcases hab with hab | ⟨ha, hb⟩
      · have : a = b := hab
        rw [this]
      · rw [if_pos ((mem_separators_iff a).2 ha), if_pos ((mem_separators_iff b).2 hb)]

/-- The comparators depend on their arguments through the components only. -/
theorem comparators_congr (a b a1 b1 : List Char) (ha : components a = components a1)
    (hb : components b = components b1) :
    JLI_ExactVersionId a b = JLI_ExactVersionId a1 b1 ∧
      JLI_PrefixVersionId a b = JLI_PrefixVersionId a1 b1 := by
  obtain ⟨e, he, hes⟩ := exactVersionId_returns a b
  obtain ⟨e1, he1, hes1⟩ := exactVersionId_returns a1 b1
  obtain ⟨p, hp, hps⟩ := prefixVersionId_returns a b
  obtain ⟨p1, hp1, hps1⟩ := prefixVersionId_returns a1 b1
  rw [← ha, ← hb] at hes1 hps1
  rw [he, he1, hp, hp1, leastNonzero_unique _ _ _ _ _ (fun _ _ => rfl) hes hes1,
    leastNonzero_unique _ _ _ _ _ (fun _ _ => rfl) hps hps1]
  exact ⟨rfl, rfl⟩

/-! ## Lemmas on the simple-elements inspected -/

theorem acceptable_element_calls_succ (release : List Char) (n : Nat) (before : Option Char)
    (element : List Char) :
    acceptable_element_calls release (n + 1) before element =
      match strchr element '&' with
      | none => [element]
      | some i =>
        element.take i ::
          (match acceptable_simple_element release before (element.take i) with
            | some true =>
              acceptable_element_calls release n (some NUL) (element.drop (i + 1))
            | _ => []) := by
  cases h : strchr element '&' with
  | none =>
    simp only [acceptable_element_calls, h]
    cases acceptable_simple_element release before element with
    | none => rfl
    | some b => cases b <;> rfl
  | some i => simp only [acceptable_element_calls, h]

theorem acceptableReleaseCalls_succ (release : List Char) (n : Nat) (before : Option Char)
    (vs : List Char) :
    acceptableReleaseCalls release (n + 1) before vs =
      match strchr vs ' ' with
      | none => acceptable_element_calls release (vs.length + 1) before vs
      | some i =>
        acceptable_element_calls release ((vs.take i).length + 1) before (vs.take i) ++
          (match acceptable_element release before (vs.take i) with
            | some false => acceptableReleaseCalls release n (some NUL) (vs.drop (i + 1))
            | _ => []) := by
  cases h : strchr vs ' ' with
  | none =>
    simp only [acceptableReleaseCalls, h]
    cases acceptable_element release before vs with
    | none => simp
    | some b => cases b <;> simp
  | some i => simp only [acceptableReleaseCalls, h]

/-- Every simple-element passed on by the loop of `acceptable_element` is one of
the `'&'`-separated pieces of the element. -/
theorem acceptable_element_calls_subset (release : List Char) (n : Nat)
    (before : Option Char) (element : List Char) :
    ∀ se ∈ acceptable_element_calls release n before element, se ∈ pieces '&' element := by
  induction n generalizing before element with
  | zero =>
    intro se hse
    cases hse
  | succ n ih =>
    have key := pieces_of_strchr '&' ampersand_ne_NUL element
    rw [acceptable_element_calls_succ]
    cases hs : strchr element '&' with
    | none =>
      rw [hs] at key
      simp only at key
      intro se hse
      rw [key]
      exact hse
    | some i =>
      rw [hs] at key
      simp only at key
      intro se hse
      rw [key]
      simp only [List.mem_cons] at hse ⊢
      rcases hse with h | h
      · exact Or.inl h
      · right
        cases hr : acceptable_simple_element release before (List.take i element) with
        | none =>
          rw [hr] at h
          cases h
        | some b =>
          rw [hr] at h
          cases b
          · cases h
          · exact ih (some NUL) _ se h

/-- Every simple-element passed on during the loop of `JLI_AcceptableRelease`
is an `'&'`-separated piece of a space-separated piece of the version-string. -/
theorem acceptableReleaseCalls_subset (release : List Char) (n : Nat)
    (before : Option Char) (vs : List Char) :
    ∀ se ∈ acceptableReleaseCalls release n before vs,
      ∃ e ∈ pieces ' ' vs, se ∈ pieces '&' e := by
  induction n generalizing before vs with
  | zero =>
    intro se hse
    cases hse
  | succ n ih =>
    have key := pieces_of_strchr ' ' space_ne_NUL vs
    rw [acceptableReleaseCalls_succ]
    cases hs : strchr vs ' ' with
    | none =>
      rw [hs] at key
      simp only at key
      intro se hse
      exact ⟨vs, by rw [key]; exact List.mem_singleton_self _,
        acceptable_element_calls_subset release _ before vs se hse⟩
    | some i =>
      rw [hs] at key
      simp only at key
      intro se hse
      rcases List.mem_append.1 hse with h | h
      · exact ⟨vs.take i, by rw [key]; exact List.mem_cons_self _ _,
          acceptable_element_calls_subset release _ before _ se h⟩
      · cases hr : acceptable_element release before (List.take i vs) with
        | none =>
          rw [hr] at h
          cases h
        | some b =>
          rw [hr] at h
          cases b
          · obtain ⟨e, he, hmem⟩ := ih (some NUL) _ se h
            exact ⟨e, by rw [key]; exact List.mem_cons_of_mem _ he, hmem⟩
          · cases h

/-- A valid simple-element is non-empty and stays non-empty once its trailing
modifier is removed. -/
theorem nonempty_of_valid_simple_element (se : List Char)
    (h : valid_simple_element (some se) = true) : se ≠ [] ∧ stripModifier se ≠ [] := by
  rcases eq_nil_or_snoc se with e | ⟨t, c, e⟩
  · subst e
    simp [valid_simple_element] at h
  · subst e
    rw [valid_simple_element_concat] at h
    rw [stripModifier_concat]
    refine ⟨by simp, ?_⟩
    by_cases hm : IsModifier c
    · rw [if_pos hm] at h ⊢
      intro ht
      rw [if_pos ht] at h
      cases h
    · rw [if_neg hm]
      simp

/-! ## The component comparator -/

/-- C6: for non-empty strings `a`, `b` of ASCII digits whose values do not
exceed 2147483647, `comp_string a b` is the exact difference
`value a - value b`: the 32-bit subtraction does not wrap, so the result is 0
exactly when the values are equal and negative exactly when `value a` is the
smaller. -/
theorem comp_string_numeric_difference (a b : List Char) (_ha : a ≠ []) (_hb : b ≠ [])
    (hda : DigitString a) (hdb : DigitString b)
    (hva : decimalValue a ≤ 2147483647) (hvb : decimalValue b ≤ 2147483647) :
    comp_string a b = (decimalValue a : Int) - (decimalValue b : Int) ∧
      (comp_string a b = 0 ↔ decimalValue a = decimalValue b) ∧
      (comp_string a b < 0 ↔ decimalValue a < decimalValue b) := by
  have h1 : isjavaint a = some (decimalValue a : Int) := by
    rw [isjavaint_eq, if_pos ⟨hda, hva⟩]
  have h2 : isjavaint b = some (decimalValue b : Int) := by
    rw [isjavaint_eq, if_pos ⟨hdb, hvb⟩]
  have hc : comp_string a b = toJint ((decimalValue a : Int) - (decimalValue b : Int)) := by
    simp only [comp_string, h1, h2]
  rw [hc, toJint_of_range _ (by omega) (by omega)]
  refine ⟨rfl, ?_, ?_⟩ <;> omega

/-- Witness of C6: leading zeros and the largest value. -/
theorem comp_string_numeric_difference_witness :
    ("0012".toList ≠ [] ∧ "2147483647".toList ≠ [] ∧
      DigitString "0012".toList ∧ DigitString "2147483647".toList ∧
      decimalValue "0012".toList ≤ 2147483647 ∧
      decimalValue "2147483647".toList ≤ 2147483647) ∧
    (comp_string "0012".toList "2147483647".toList =
        (decimalValue "0012".toList : Int) - (decimalValue "2147483647".toList : Int) ∧
      (comp_string "0012".toList "2147483647".toList = 0 ↔
        decimalValue "0012".toList = decimalValue "2147483647".toList) ∧
      (comp_string "0012".toList "2147483647".toList < 0 ↔
        decimalValue "0012".toList < decimalValue "2147483647".toList)) :=
  ⟨by decide,
   comp_string_numeric_difference "0012".toList "2147483647".toList
     (by decide) (by decide) (by decide) (by decide) (by decide) (by decide)⟩

/-- C7: when at least one of `a`, `b` contains a non-digit character or is a
digit string whose value exceeds 2147483647, `comp_string a b` is
`strcmp a b` on the whole texts; `isjavaint` (whose accumulator is reduced to
64 bits at every step) returns false on each such operand, whatever its
length. -/
theorem comp_string_lexical (a b : List Char) (h : NotNumeral a ∨ NotNumeral b) :
    comp_string a b = strcmp a b ∧
      (NotNumeral a → isjavaint a = none) ∧ (NotNumeral b → isjavaint b = none) := by
  have key : ∀ s, NotNumeral s → isjavaint s = none := by
    intro s hs
    rw [isjavaint_eq, if_neg ((notNumeral_iff s).1 hs)]
  refine ⟨?_, key a, key b⟩
  rcases h with h | h
  · simp only [comp_string, key a h]
  · cases h1 : isjavaint a with
    | none => simp only [comp_string, h1]
    | some v => simp only [comp_string, h1, key b h]

/-- Witness of C7: `"99999999999"` against `"2"` is compared as text, and
comes out positive; `"2147483647"` is a number and `"2147483648"` is not. -/
theorem comp_string_lexical_witness :
    (NotNumeral "99999999999".toList ∨ NotNumeral "2".toList) ∧
    (comp_string "99999999999".toList "2".toList
        = strcmp "99999999999".toList "2".toList ∧
      (NotNumeral "99999999999".toList → isjavaint "99999999999".toList = none) ∧
      (NotNumeral "2".toList → isjavaint "2".toList = none)) ∧
    0 < strcmp "99999999999".toList "2".toList ∧
    isjavaint "2147483647".toList = some 2147483647 ∧
    isjavaint "2147483648".toList = none :=
  ⟨by decide, comp_string_lexical "99999999999".toList "2".toList (by decide),
   by decide, by decide, by decide⟩

/-- C8 (the code at the failing input): `isjavaint` returns true on the empty
string, with value 0, so `comp_string "" "0"` is the numeric difference 0 and
not the negative `strcmp "" "0"`; in consequence `"1."` and `"1"` are an exact
match, and the release `"1."` is accepted by the version-string `"1"`. -/
theorem comp_string_empty_is_zero :
    isjavaint [] = some 0 ∧
    comp_string [] "0".toList = 0 ∧
    comp_string "0".toList [] = 0 ∧
    strcmp [] "0".toList < 0 ∧
    JLI_ExactVersionId "1.".toList "1".toList = some 0 ∧
    JLI_AcceptableRelease "1.".toList "1".toList = some true := by
  decide

/-! ## The version-id comparators -/

/-- C4: `JLI_ExactVersionId id1 id2` returns the value of `comp_string` on the
`i`-th components at the least index `i` below `max n1 n2` where that value is
not 0, each component list being padded with the component `"0"`, and returns 0
when there is no such index.  So `"1.2"` against `"1.2.0"` gives 0, against
`"1.2.1"` a negative result, and `"1.2.1"` against `"1.2"` a positive one. -/
theorem JLI_ExactVersionId_padded (id1 id2 : List Char) :
    (∃ r, JLI_ExactVersionId id1 id2 = some r ∧
      LeastNonzero (max (components id1).length (components id2).length)
        (fun i => comp_string ((components id1).getD i zero_string)
          ((components id2).getD i zero_string)) r) ∧
    JLI_ExactVersionId "1.2".toList "1.2.0".toList = some 0 ∧
    JLI_ExactVersionId "1.2".toList "1.2.1".toList = some (-1) ∧
    JLI_ExactVersionId "1.2.1".toList "1.2".toList = some 1 :=
  ⟨exactVersionId_returns id1 id2, by decide, by decide, by decide⟩

/-- C5: `JLI_PrefixVersionId id1 id2` returns the value of `comp_string` on the
`i`-th components at the least index `i` below `min n1 n2` where that value is
not 0, and 0 when the first `min n1 n2` pairs all compare equal; two texts with
the same first `min n1 n2` components on each side (and the same `min`) give the
same result, whatever their other components.  So `"1.2"` against `"1.2.3"`
gives 0 and `"1.3"` against `"1.2.3"` a positive result. -/
theorem JLI_PrefixVersionId_common (id1 id2 : List Char) :
    (∃ r, JLI_PrefixVersionId id1 id2 = some r ∧
      LeastNonzero (min (components id1).length (components id2).length)
        (fun i => comp_string ((components id1).getD i []) ((components id2).getD i [])) r) ∧
    (∀ x1 x2 : List Char,
      min (components x1).length (components x2).length
        = min (components id1).length (components id2).length →
      (∀ i, i < min (components id1).length (components id2).length →
        (components x1).getD i [] = (components id1).getD i [] ∧
        (components x2).getD i [] = (components id2).getD i []) →
      JLI_PrefixVersionId x1 x2 = JLI_PrefixVersionId id1 id2) ∧
    JLI_PrefixVersionId "1.2".toList "1.2.3".toList = some 0 ∧
    JLI_PrefixVersionId "1.3".toList "1.2.3".toList = some 1 := by
  refine ⟨prefixVersionId_returns id1 id2, ?_, by decide, by decide⟩
  intro x1 x2 hmin hsame
  obtain ⟨r, hr, hspec⟩ := prefixVersionId_returns id1 id2
  obtain ⟨r1, hr1, hspec1⟩ := prefixVersionId_returns x1 x2
  rw [hr, hr1]
  rw [hmin] at hspec1
  have := leastNonzero_unique _ _ _ _ _ ?_ hspec1 hspec
  · rw [this]
  · intro i hi
    simp only [compareAt, (hsame i hi).1, (hsame i hi).2]

/-! ## Acceptability of a simple-element -/

/-- C2: for a release without hyphen and a non-empty version-id `v` that does
not end in `'+'` or `'*'`, both comparators return (say `p` for the Prefix Match
and `e` for the Exact Match of `release` against `v`), and
`acceptable_simple_element` returns true on `v ++ "*"` exactly when `p = 0`,
on `v ++ "+"` exactly when `e ≥ 0`, and on `v` exactly when `e = 0`. -/
theorem acceptable_simple_element_no_hyphen (release v : List Char) (before : Option Char)
    (hr : '-' ∉ release) (hv : v ≠ [])
    (hmod : v.getLast? ≠ some '+' ∧ v.getLast? ≠ some '*') :
    ∃ p e, JLI_PrefixVersionId release v = some p ∧ JLI_ExactVersionId release v = some e ∧
      acceptable_simple_element release before (v ++ ['*']) = some (decide (p = 0)) ∧
      acceptable_simple_element release before (v ++ ['+']) = some (decide (e ≥ 0)) ∧
      acceptable_simple_element release before v = some (decide (e = 0)) := by
  obtain ⟨p, hp, _⟩ := prefixVersionId_returns release v
  obtain ⟨e, he, _⟩ := exactVersionId_returns release v
  have hno : ¬ ((strchr release '-').isSome = true) :=
    fun h => hr ((strchr_isSome_iff release '-' hyphen_ne_NUL).1 h)
  obtain ⟨c, hc⟩ : ∃ c, v.getLast? = some c := by
    cases h : v.getLast? with
    | none => exact absurd (List.getLast?_eq_none_iff.1 h) hv
    | some c => exact ⟨c, rfl⟩
  have h1 : c ≠ '*' := fun h => hmod.2 (h ▸ hc)
  have h2 : c ≠ '+' := fun h => hmod.1 (h ▸ hc)
  refine ⟨p, e, hp, he, ?_, ?_, ?_⟩
  · rw [acceptable_simple_element_star, if_neg hno, hp]
    rfl
  · rw [acceptable_simple_element_plus, if_neg hno, he]
    rfl
  · rw [acceptable_simple_element_plain release v before c hc h1 h2, he]
    rfl

/-- Witness of C2: release `"1.8.0"` with the version-id `"1.8.0"`; moreover
`("1.8.0", "1.8.0+")` is accepted, `("1.7.0", "1.8.0+")` is rejected and
`("1.8.0", "1.8*")` is accepted. -/
theorem acceptable_simple_element_no_hyphen_witness :
    ('-' ∉ "1.8.0".toList ∧ "1.8.0".toList ≠ [] ∧
      "1.8.0".toList.getLast? ≠ some '+' ∧ "1.8.0".toList.getLast? ≠ some '*') ∧
    (∃ p e, JLI_PrefixVersionId "1.8.0".toList "1.8.0".toList = some p ∧
      JLI_ExactVersionId "1.8.0".toList "1.8.0".toList = some e ∧
      acceptable_simple_element "1.8.0".toList none ("1.8.0".toList ++ ['*'])
        = some (decide (p = 0)) ∧
      acceptable_simple_element "1.8.0".toList none ("1.8.0".toList ++ ['+'])
        = some (decide (e ≥ 0)) ∧
      acceptable_simple_element "1.8.0".toList none "1.8.0".toList = some (decide (e = 0))) ∧
    acceptable_simple_element "1.8.0".toList none "1.8.0+".toList = some true ∧
    acceptable_simple_element "1.7.0".toList none "1.8.0+".toList = some false ∧
    acceptable_simple_element "1.8.0".toList none "1.8*".toList = some true :=
  ⟨by decide,
   acceptable_simple_element_no_hyphen "1.8.0".toList "1.8.0".toList none
     (by decide) (by decide) (by decide),
   by decide, by decide, by decide⟩

/-- C3: for a release that contains a hyphen and a non-empty version-id `v`
(both C strings), `acceptable_simple_element` returns true on `v ++ "*"` and on
`v ++ "+"` exactly when `release` and `v` are the same text; the result is that
of `strcmp` alone. -/
theorem acceptable_simple_element_hyphen (release v : List Char) (before : Option Char)
    (hrel : IsCStr release) (hcv : IsCStr v) (hr : '-' ∈ release) (_hv : v ≠ []) :
    acceptable_simple_element release before (v ++ ['*']) = some (decide (release = v)) ∧
    acceptable_simple_element release before (v ++ ['+']) = some (decide (release = v)) ∧
    acceptable_simple_element release before (v ++ ['*'])
      = some (decide (strcmp release v = 0)) ∧
    acceptable_simple_element release before (v ++ ['+'])
      = some (decide (strcmp release v = 0)) := by
  have hyes : (strchr release '-').isSome = true :=
    (strchr_isSome_iff release '-' hyphen_ne_NUL).2 hr
  have hd : decide (strcmp release v = 0) = decide (release = v) :=
    decide_eq_decide.2 (strcmp_eq_zero_iff release v hrel hcv)
  simp only [acceptable_simple_element_star, acceptable_simple_element_plus, hyes, if_true, hd,
    and_self]

/-- Witness of C3: release `"1.8.0-ea"` with the version-id `"1.8"`; so
`("1.8.0-ea", "1.8*")` is rejected, while `("1.8.0-ea", "1.8.0-ea+")` is
accepted. -/
theorem acceptable_simple_element_hyphen_witness :
    (IsCStr "1.8.0-ea".toList ∧ IsCStr "1.8".toList ∧ '-' ∈ "1.8.0-ea".toList ∧
      "1.8".toList ≠ []) ∧
    (acceptable_simple_element "1.8.0-ea".toList none ("1.8".toList ++ ['*'])
        = some (decide ("1.8.0-ea".toList = "1.8".toList)) ∧
      acceptable_simple_element "1.8.0-ea".toList none ("1.8".toList ++ ['+'])
        = some (decide ("1.8.0-ea".toList = "1.8".toList)) ∧
      acceptable_simple_element "1.8.0-ea".toList none ("1.8".toList ++ ['*'])
        = some (decide (strcmp "1.8.0-ea".toList "1.8".toList = 0)) ∧
      acceptable_simple_element "1.8.0-ea".toList none ("1.8".toList ++ ['+'])
        = some (decide (strcmp "1.8.0-ea".toList "1.8".toList = 0))) ∧
    acceptable_simple_element "1.8.0-ea".toList none "1.8*".toList = some false ∧
    acceptable_simple_element "1.8.0-ea".toList none "1.8.0-ea+".toList = some true :=
  ⟨by decide,
   acceptable_simple_element_hyphen "1.8.0-ea".toList "1.8".toList none
     (by decide) (by decide) (by decide) (by decide),
   by decide, by decide⟩

/-! ## Acceptability of a version-string -/

/-- C1: for a version-string none of whose space-delimited elements and none of
whose `'&'`-delimited simple-elements is empty, `JLI_AcceptableRelease` returns,
and returns true if and only if at least one element has all of its
simple-elements accepted by `acceptable_simple_element` (wherever the
simple-element lies in its buffer). -/
theorem JLI_AcceptableRelease_or_of_and (release version_string : List Char)
    (before : Option Char)
    (hne : ∀ e ∈ pieces ' ' version_string, e ≠ [] ∧ ∀ se ∈ pieces '&' e, se ≠ []) :
    ∃ b, JLI_AcceptableRelease release version_string = some b ∧
      (b = true ↔
        ∃ e ∈ pieces ' ' version_string,
          ∀ se ∈ pieces '&' e, acceptable_simple_element release before se = some true) :=
  acceptableReleaseLoop_spec release before (version_string.length + 1) none
    (JLI_StringDup version_string) (fun e he => (hne e he).2)
    (pieces_length_le ' ' version_string)

/-- Witness of C1: `JLI_AcceptableRelease "1.6.0_20" "1.5+ 1.6* 1.7*"` is
true. -/
theorem JLI_AcceptableRelease_or_of_and_witness :
    (∀ e ∈ pieces ' ' "1.5+ 1.6* 1.7*".toList,
      e ≠ [] ∧ ∀ se ∈ pieces '&' e, se ≠ []) ∧
    (∃ b, JLI_AcceptableRelease "1.6.0_20".toList "1.5+ 1.6* 1.7*".toList = some b ∧
      (b = true ↔
        ∃ e ∈ pieces ' ' "1.5+ 1.6* 1.7*".toList,
          ∀ se ∈ pieces '&' e,
            acceptable_simple_element "1.6.0_20".toList none se = some true)) ∧
    JLI_AcceptableRelease "1.6.0_20".toList "1.5+ 1.6* 1.7*".toList = some true :=
  ⟨by decide,
   JLI_AcceptableRelease_or_of_and "1.6.0_20".toList "1.5+ 1.6* 1.7*".toList none (by decide),
   by decide⟩

/-! ## Validity of a simple-element -/

/-- C9: for every C string `s`, `valid_simple_element s` is true if and only if
`s` is non-empty and the text `t` obtained by removing at most one trailing
`'+'` or `'*'` is non-empty and (1) contains none of `' '`, `'&'`, `'+'`,
`'*'`, (2) neither starts nor ends with a separator, (3) contains no two
adjacent separators. -/
theorem valid_simple_element_three_properties (s : List Char) (hs : IsCStr s) :
    valid_simple_element (some s) = true ↔
      s ≠ [] ∧ stripModifier s ≠ [] ∧
        (∀ c ∈ stripModifier s, c ≠ ' ' ∧ c ≠ '&' ∧ c ≠ '+' ∧ c ≠ '*') ∧
        ((∀ c, (stripModifier s).head? = some c → ¬ IsSeparator c) ∧
          (∀ c, (stripModifier s).getLast? = some c → ¬ IsSeparator c)) ∧
        (stripModifier s).Chain' (fun a b => ¬ (IsSeparator a ∧ IsSeparator b)) :=
  valid_simple_element_iff_properties s hs

/-- Witness of C9: `"1.6+"` is a valid simple-element. -/
theorem valid_simple_element_three_properties_witness :
    IsCStr "1.6+".toList ∧
    (valid_simple_element (some "1.6+".toList) = true ↔
      "1.6+".toList ≠ [] ∧ stripModifier "1.6+".toList ≠ [] ∧
        (∀ c ∈ stripModifier "1.6+".toList, c ≠ ' ' ∧ c ≠ '&' ∧ c ≠ '+' ∧ c ≠ '*') ∧
        ((∀ c, (stripModifier "1.6+".toList).head? = some c → ¬ IsSeparator c) ∧
          (∀ c, (stripModifier "1.6+".toList).getLast? = some c → ¬ IsSeparator c)) ∧
        (stripModifier "1.6+".toList).Chain'
          (fun a b => ¬ (IsSeparator a ∧ IsSeparator b))) ∧
    valid_simple_element (some "1.6+".toList) = true ∧
    valid_simple_element (some "1.6+*".toList) = false ∧
    valid_simple_element (some "1.6..0".toList) = false ∧
    valid_simple_element (some "-1.6".toList) = false ∧
    valid_simple_element (some "1.6_".toList) = false ∧
    valid_simple_element (some "+".toList) = false ∧
    valid_simple_element (some []) = false :=
  ⟨by decide, valid_simple_element_three_properties "1.6+".toList (by decide),
   by decide, by decide, by decide, by decide, by decide, by decide, by decide⟩

/-- C10: `valid_simple_element` accepts exactly the language of the official
grammar: for every C string `s`, `valid_simple_element s` is true if and only
if `s` is derivable from `simple-element`. -/
theorem valid_simple_element_iff_grammar (s : List Char) (hs : IsCStr s) :
    valid_simple_element (some s) = true ↔ GSimpleElement s := by
  rw [valid_simple_element_iff_properties s hs, gsimpleElement_iff]

/-- Witness of C10: `"1.6.0_20*"` is valid and derivable from
`simple-element`. -/
theorem valid_simple_element_iff_grammar_witness :
    IsCStr "1.6.0_20*".toList ∧
    (valid_simple_element (some "1.6.0_20*".toList) = true ↔
      GSimpleElement "1.6.0_20*".toList) ∧
    valid_simple_element (some "1.6.0_20*".toList) = true :=
  ⟨by decide, valid_simple_element_iff_grammar "1.6.0_20*".toList (by decide), by decide⟩

/-! ## Validity of a version-string -/

/-- C11: for every string `vs`, `JLI_ValidVersionString vs` returns, and returns
true if and only if `vs` is non-empty and every piece obtained by splitting
`vs` at `' '` is a non-empty element every one of whose `'&'`-separated pieces
satisfies `valid_simple_element`.  So `"1.6+&1.8.0"` is valid, while
`"1.6..0"`, `"-1.6"`, `""`, and texts with a leading, trailing or doubled
space or `'&'` are not. -/
theorem JLI_ValidVersionString_and_of_and (vs : List Char) :
    (∃ b, JLI_ValidVersionString (some vs) = some b ∧
      (b = true ↔
        vs ≠ [] ∧ ∀ e ∈ pieces ' ' vs,
          e ≠ [] ∧ ∀ se ∈ pieces '&' e, valid_simple_element (some se) = true)) ∧
    JLI_ValidVersionString (some "1.6+&1.8.0".toList) = some true ∧
    JLI_ValidVersionString (some "1.6..0".toList) = some false ∧
    JLI_ValidVersionString (some "-1.6".toList) = some false ∧
    JLI_ValidVersionString (some "".toList) = some false ∧
    JLI_ValidVersionString (some " 1.6".toList) = some false ∧
    JLI_ValidVersionString (some "1.6 ".toList) = some false ∧
    JLI_ValidVersionString (some "1.6  1.7".toList) = some false ∧
    JLI_ValidVersionString (some "&1.6".toList) = some false ∧
    JLI_ValidVersionString (some "1.6&".toList) = some false ∧
    JLI_ValidVersionString (some "1.6&&1.7".toList) = some false :=
  ⟨validVersionString_spec vs, by decide, by decide, by decide, by decide, by decide,
   by decide, by decide, by decide, by decide, by decide⟩

/-! ## Reading before the buffer -/

/-- C12 (the code at the failing inputs): on the empty version-string, and on
every version-string that begins with a space or with `'&'`, the first
simple-element is empty and lies at the first byte of the working copy, so
`acceptable_simple_element` reads `*modifier` one byte before that copy and
`JLI_AcceptableRelease` does not return a definite boolean; on every other
version-string it does.  (A doubled delimiter further on is harmless: the byte
read is the NUL written over the previous delimiter.)  `valid_simple_element`, for its part, tests the length
before it forms `last`. -/
theorem JLI_AcceptableRelease_reads_before_buffer :
    (∀ release, acceptable_simple_element release none [] = none) ∧
    (∀ release, JLI_AcceptableRelease release [] = none) ∧
    (∀ release rest, JLI_AcceptableRelease release (' ' :: rest) = none) ∧
    (∀ release rest, JLI_AcceptableRelease release ('&' :: rest) = none) ∧
    (∀ release vs, (∃ b, JLI_AcceptableRelease release vs = some b) ↔
      ∃ c rest, vs = c :: rest ∧ c ≠ ' ' ∧ c ≠ '&') ∧
    JLI_AcceptableRelease "1.6.0".toList "".toList = none ∧
    JLI_AcceptableRelease "1.6.0".toList " 1.6*".toList = none ∧
    JLI_AcceptableRelease "1.6.0".toList "&1.6*".toList = none ∧
    JLI_AcceptableRelease "1.6.0".toList "1.5  1.6*".toList = some true ∧
    JLI_AcceptableRelease "1.6.0".toList "1.5&&1.6*".toList = some false ∧
    valid_simple_element (some []) = false :=
  ⟨fun _ => rfl, fun _ => rfl, fun _ _ => rfl, acceptableRelease_ampersand,
   acceptableRelease_returns_iff,
   by decide, by decide, by decide, by decide, by decide, by decide⟩

/-! ## Order properties of the comparators -/

/-- C16: `JLI_ExactVersionId` is not a transitive ordering: with `a = "10"`,
`b = "9"`, `c = "5a"`, each of `(a, b)`, `(b, c)`, `(c, a)` compares positive.
Acceptance under `'+'` is not transitive either: `"10"` is accepted by `"9+"`
and `"9"` by `"5a+"`, but `"10"` is not accepted by `"5a+"`. -/
theorem JLI_ExactVersionId_not_transitive :
    (∃ a b c : List Char, ∃ x y z : Int,
      JLI_ExactVersionId a b = some x ∧ 0 < x ∧
      JLI_ExactVersionId b c = some y ∧ 0 < y ∧
      JLI_ExactVersionId c a = some z ∧ 0 < z) ∧
    JLI_ExactVersionId "10".toList "9".toList = some 1 ∧
    JLI_ExactVersionId "9".toList "5a".toList = some 4 ∧
    JLI_ExactVersionId "5a".toList "10".toList = some 4 ∧
    acceptable_simple_element "10".toList none "9+".toList = some true ∧
    acceptable_simple_element "9".toList none "5a+".toList = some true ∧
    acceptable_simple_element "10".toList none "5a+".toList = some false :=
  ⟨⟨"10".toList, "9".toList, "5a".toList, 1, 4, 4,
      by decide, by decide, by decide, by decide, by decide, by decide⟩,
   by decide, by decide, by decide, by decide, by decide, by decide⟩

/-! ## Termination of the comparator loops -/

/-- C13: for every pair of texts, malformed ones included, the `do` loops of
`JLI_ExactVersionId` and `JLI_PrefixVersionId` terminate: the exact loop ends
within `max k1 k2 + 1` iterations and the prefix loop within `min k1 k2 + 1`,
`k1` and `k2` being the numbers of separators of the two texts (that is, no
later than the iteration in which both sides, respectively either side, have no
separator left), and both functions return.  Each iteration consumes exactly
one separator from every side that is not exhausted, makes a side without
separator exhausted, and leaves an exhausted side exhausted (`SideStep`). -/
theorem comparator_loops_terminate (id1 id2 : List Char) :
    (∀ n, max (separatorCount id1) (separatorCount id2) + 1 ≤ n →
      ∃ r, exactLoop n (loopEntry id1 id2) = some r ∧
        JLI_ExactVersionId id1 id2 = some r) ∧
    (∀ n, min (separatorCount id1) (separatorCount id2) + 1 ≤ n →
      ∃ r, prefixLoop n (loopEntry id1 id2) = some r ∧
        JLI_PrefixVersionId id1 id2 = some r) ∧
    (∀ l : Locals, (l.s1 = none → l.end1 = none) → (l.s2 = none → l.end2 = none) →
      (l.s1.isSome ∨ l.s2.isSome) →
      ∃ l1, exactBody l = some l1 ∧ SideStep l.s1 l1.s1 ∧ SideStep l.s2 l1.s2 ∧
        (l1.s1 = none → l1.end1 = none) ∧ (l1.s2 = none → l1.end2 = none)) ∧
    (∀ l : Locals, l.s1.isSome → l.s2.isSome →
      ∃ l1, prefixBody l = some l1 ∧ SideStep l.s1 l1.s1 ∧ SideStep l.s2 l1.s2) ∧
    JLI_ExactVersionId ".1..2-".toList "_".toList = some 1 ∧
    JLI_PrefixVersionId ".1..2-".toList "_".toList = some 1 :=
  ⟨exactLoop_terminates id1 id2, prefixLoop_terminates id1 id2, exactBody_sideStep,
   prefixBody_sideStep, by decide, by decide⟩

/-- C15: both comparators are sign-antisymmetric and reflexive: for all texts
`a` and `b`, `JLI_ExactVersionId b a` is the negation of
`JLI_ExactVersionId a b`, so its sign is the negated sign, likewise for
`JLI_PrefixVersionId`, and both return 0 on `(a, a)`. -/
theorem comparators_antisymmetric_reflexive (a b : List Char) :
    (∃ x y, JLI_ExactVersionId a b = some x ∧ JLI_ExactVersionId b a = some y ∧
      y = - x ∧ Int.sign y = - Int.sign x) ∧
    (∃ x y, JLI_PrefixVersionId a b = some x ∧ JLI_PrefixVersionId b a = some y ∧
      y = - x ∧ Int.sign y = - Int.sign x) ∧
    JLI_ExactVersionId a a = some 0 ∧
    JLI_PrefixVersionId a a = some 0 := by
  obtain ⟨x, hx, hy⟩ := exactVersionId_antisymm a b
  obtain ⟨p, hp, hq⟩ := prefixVersionId_antisymm a b
  exact ⟨⟨x, - x, hx, hy, rfl, Int.sign_neg x⟩, ⟨p, - p, hp, hq, rfl, Int.sign_neg p⟩,
    exactVersionId_self a, prefixVersionId_self a⟩

/-! ## Modifiers and separators -/

/-- C17: for a release without hyphen and a non-empty version-id `v` that does
not end in `'+'` or `'*'`, if `acceptable_simple_element` accepts `v` then it
accepts `v ++ "+"` and `v ++ "*"`; in particular an Exact Match equal to 0
makes the Prefix Match equal to 0. -/
theorem modifiers_relax (release v : List Char) (before : Option Char)
    (hr : '-' ∉ release) (hv : v ≠ [])
    (hmod : v.getLast? ≠ some '+' ∧ v.getLast? ≠ some '*')
    (hacc : acceptable_simple_element release before v = some true) :
    acceptable_simple_element release before (v ++ ['+']) = some true ∧
    acceptable_simple_element release before (v ++ ['*']) = some true ∧
    JLI_ExactVersionId release v = some 0 ∧
    JLI_PrefixVersionId release v = some 0 := by
  have hno : ¬ ((strchr release '-').isSome = true) :=
    fun h => hr ((strchr_isSome_iff release '-' hyphen_ne_NUL).1 h)
  obtain ⟨c, hc⟩ : ∃ c, v.getLast? = some c := by
    cases h : v.getLast? with
    | none => exact absurd (List.getLast?_eq_none_iff.1 h) hv
    | some c => exact ⟨c, rfl⟩
  have h1 : c ≠ '*' := fun h => hmod.2 (h ▸ hc)
  have h2 : c ≠ '+' := fun h => hmod.1 (h ▸ hc)
  obtain ⟨e, he, _⟩ := exactVersionId_returns release v
  rw [acceptable_simple_element_plain release v before c hc h1 h2, he] at hacc
  have he0 : e = 0 := by simpa using hacc
  subst he0
  have hp := prefix_zero_of_exact_zero release v he
  refine ⟨?_, ?_, he, hp⟩
  · rw [acceptable_simple_element_plus, if_neg hno, he]
    rfl
  · rw [acceptable_simple_element_star, if_neg hno, hp]
    rfl

/-- Witness of C17: release `"1.8"` with the version-id `"1.8.0"`. -/
theorem modifiers_relax_witness :
    ('-' ∉ "1.8".toList ∧ "1.8.0".toList ≠ [] ∧
      ("1.8.0".toList.getLast? ≠ some '+' ∧ "1.8.0".toList.getLast? ≠ some '*') ∧
      acceptable_simple_element "1.8".toList none "1.8.0".toList = some true) ∧
    (acceptable_simple_element "1.8".toList none ("1.8.0".toList ++ ['+']) = some true ∧
      acceptable_simple_element "1.8".toList none ("1.8.0".toList ++ ['*']) = some true ∧
      JLI_ExactVersionId "1.8".toList "1.8.0".toList = some 0 ∧
      JLI_PrefixVersionId "1.8".toList "1.8.0".toList = some 0) :=
  ⟨by decide,
   modifiers_relax "1.8".toList "1.8.0".toList none (by decide) (by decide) (by decide)
     (by decide)⟩

/-- C18: for a release `r` without hyphen and every version-id `v`,
`acceptable_simple_element` accepts `v ++ "*"` whenever the components of `r`
and of `v` that both have compare equal pairwise, whichever of the two has
fewer components; so the release `"1.8"` is accepted by `"1.8.0*"` and by
`"1.8.5*"`. -/
theorem star_matches_both_ways (r v : List Char) (before : Option Char)
    (hr : '-' ∉ r)
    (heq : ∀ i, i < (components r).length → i < (components v).length →
      comp_string ((components r).getD i []) ((components v).getD i []) = 0) :
    acceptable_simple_element r before (v ++ ['*']) = some true := by
  have hno : ¬ ((strchr r '-').isSome = true) :=
    fun h => hr ((strchr_isSome_iff r '-' hyphen_ne_NUL).1 h)
  rw [acceptable_simple_element_star, if_neg hno, prefixVersionId_zero_of_common r v heq]
  rfl

/-- Witness of C18: the release `"1.8"`, which has fewer components than
`"1.8.5"`. -/
theorem star_matches_both_ways_witness :
    ('-' ∉ "1.8".toList ∧
      ∀ i, i < (components "1.8".toList).length → i < (components "1.8.5".toList).length →
        comp_string ((components "1.8".toList).getD i [])
          ((components "1.8.5".toList).getD i []) = 0) ∧
    acceptable_simple_element "1.8".toList none ("1.8.5".toList ++ ['*']) = some true ∧
    (components "1.8".toList).length < (components "1.8.5".toList).length ∧
    acceptable_simple_element "1.8".toList none "1.8.0*".toList = some true ∧
    acceptable_simple_element "1.8".toList none "1.8.5*".toList = some true :=
  ⟨by decide,
   star_matches_both_ways "1.8".toList "1.8.5".toList none (by decide) (by decide),
   by decide, by decide, by decide⟩

/-- C19: the comparators ignore which separator character is used: when `a1`
and `b1` are obtained from `a` and `b` by replacing occurrences of separators
by separators, `JLI_ExactVersionId` and `JLI_PrefixVersionId` return on
`(a1, b1)` what they return on `(a, b)`. -/
theorem comparators_ignore_separator_kind (a b a1 b1 : List Char)
    (ha : SameUpToSeparators a a1) (hb : SameUpToSeparators b b1) :
    JLI_ExactVersionId a b = JLI_ExactVersionId a1 b1 ∧
      JLI_PrefixVersionId a b = JLI_PrefixVersionId a1 b1 :=
  comparators_congr a b a1 b1 (components_congr a a1 ha) (components_congr b b1 hb)

/-- Witness of C19: `"1.6.0_20"` against `"1.6.0.20"` compares like
`"1.6.0.20"` against itself, that is, 0. -/
theorem comparators_ignore_separator_kind_witness :
    (SameUpToSeparators "1.6.0_20".toList "1.6.0.20".toList ∧
      SameUpToSeparators "1.6.0.20".toList "1.6.0.20".toList) ∧
    (JLI_ExactVersionId "1.6.0_20".toList "1.6.0.20".toList
        = JLI_ExactVersionId "1.6.0.20".toList "1.6.0.20".toList ∧
      JLI_PrefixVersionId "1.6.0_20".toList "1.6.0.20".toList
        = JLI_PrefixVersionId "1.6.0.20".toList "1.6.0.20".toList) ∧
    JLI_ExactVersionId "1.6.0_20".toList "1.6.0.20".toList = some 0 ∧
    JLI_ExactVersionId "1-6_0.20".toList "1.6.0.20".toList = some 0 :=
  ⟨by decide,
   comparators_ignore_separator_kind "1.6.0_20".toList "1.6.0.20".toList
     "1.6.0.20".toList "1.6.0.20".toList (by decide) (by decide),
   by decide, by decide⟩

/-! ## Acceptability of a validated version-string -/

/-- C14: for every version-string accepted by `JLI_ValidVersionString` and every
release, every simple-element that the evaluation of `JLI_AcceptableRelease`
passes to `acceptable_simple_element` (indeed every simple-element of the
version-string) is non-empty and stays non-empty once its trailing modifier is
removed, so the version-id handed to the comparators is non-empty; the read at
index `length - 1` is inside the buffer, and `JLI_AcceptableRelease` returns a
boolean. -/
theorem validated_version_string_has_no_empty_simple_element
    (release version_string : List Char)
    (hvalid : JLI_ValidVersionString (some version_string) = some true) :
    (∀ se ∈ simpleElementsInspected release version_string,
      se ≠ [] ∧ stripModifier se ≠ []) ∧
    (∀ e ∈ pieces ' ' version_string, ∀ se ∈ pieces '&' e,
      se ≠ [] ∧ stripModifier se ≠ []) ∧
    (∃ b, JLI_AcceptableRelease release version_string = some b) := by
  obtain ⟨b, hb, hspec⟩ := validVersionString_spec version_string
  have hbt : b = true := by
    rw [hvalid] at hb
    exact (Option.some.inj hb).symm
  obtain ⟨_, hall⟩ := hspec.1 hbt
  have hpieces : ∀ e ∈ pieces ' ' version_string, ∀ se ∈ pieces '&' e,
      se ≠ [] ∧ stripModifier se ≠ [] :=
    fun e he se hse => nonempty_of_valid_simple_element se ((hall e he).2 se hse)
  refine ⟨?_, hpieces, ?_⟩
  · intro se hse
    obtain ⟨e, he, hmem⟩ := acceptableReleaseCalls_subset release _ none _ se hse
    exact hpieces e he se hmem
  · obtain ⟨r, hr, _⟩ := acceptableReleaseLoop_spec release none
      (version_string.length + 1) none (JLI_StringDup version_string)
      (fun e he se hse => (hpieces e he se hse).1) (pieces_length_le ' ' version_string)
    exact ⟨r, hr⟩

/-- Witness of C14: the version-string `"1.7+ 1.6*&1.6.0_20"` with the release
`"1.6.0_20"`; its three simple-elements are inspected. -/
theorem validated_version_string_has_no_empty_simple_element_witness :
    JLI_ValidVersionString (some "1.7+ 1.6*&1.6.0_20".toList) = some true ∧
    ((∀ se ∈ simpleElementsInspected "1.6.0_20".toList "1.7+ 1.6*&1.6.0_20".toList,
        se ≠ [] ∧ stripModifier se ≠ []) ∧
      (∀ e ∈ pieces ' ' "1.7+ 1.6*&1.6.0_20".toList, ∀ se ∈ pieces '&' e,
        se ≠ [] ∧ stripModifier se ≠ []) ∧
      (∃ b, JLI_AcceptableRelease "1.6.0_20".toList "1.7+ 1.6*&1.6.0_20".toList
        = some b)) ∧
    simpleElementsInspected "1.6.0_20".toList "1.7+ 1.6*&1.6.0_20".toList
      = ["1.7+".toList, "1.6*".toList, "1.6.0_20".toList] ∧
    JLI_AcceptableRelease "1.6.0_20".toList "1.7+ 1.6*&1.6.0_20".toList = some true :=
  ⟨by decide,
   validated_version_string_has_no_empty_simple_element "1.6.0_20".toList
     "1.7+ 1.6*&1.6.0_20".toList (by decide),
   by decide, by decide⟩

end VersionComp
